import Mathlib

/-!
Shallow embedding of the `rust_lazy` operation graph (src/src/operation.rs,
src/src/operation/instruction.rs).

Modelling choices:
* `f32` values are modelled by `F32`: an idealized IEEE-754 binary32 domain
  with NaN, signed infinity and exact rational finite values (`inf false` is
  positive infinity).  The special-value rules of the arithmetic operations
  follow the IEEE-754 standard; finite arithmetic is exact (no rounding),
  which is faithful on all inputs exercised here.
* The expression DAG built of `Rc<RefCell<...>>` handles is embedded as a
  node arena `g : List Op`: a handle is an index into `g`, aliasing two
  handles is using the same index twice, and acyclicity (operand handles are
  always created before the node that references them) is the well-formedness
  predicate `WF` (every operand index is smaller than the node's own index).
* The per-node interior-mutable `compile_ret : Option<usize>` fields become
  the list `CState.memo`; the `(0..)` slot iterator becomes `CState.counter`.
* Recursion in `compile`/`execute` is fuel-indexed; under `WF` the fuel
  `i + 1` is always enough for node `i` (operands strictly decrease), so the
  `none` (out-of-fuel) branch is unreachable on well-formed graphs.
* Rust panics (`unreachable!()` in `Scalar::compile`) are modelled as `none`.
-/

namespace RustLazy

/-- Idealized IEEE-754 binary32 value: NaN, signed infinity (`inf false` is
positive infinity, `inf true` negative), or an exact finite value. -/
inductive F32 where
  | nan : F32
  | inf (sign : Bool) : F32
  | finite (val : ℚ) : F32
deriving DecidableEq, Repr

/-- IEEE-754 addition on the idealized domain (models Rust `f32` `+`). -/
def F32.add : F32 → F32 → F32
  | .nan, _ => .nan
  | _, .nan => .nan
  | .inf s, .inf t => if s = t then .inf s else .nan
  | .inf s, .finite _ => .inf s
  | .finite _, .inf t => .inf t
  | .finite p, .finite q => .finite (p + q)

/-- IEEE-754 subtraction on the idealized domain (models Rust `f32` `-`). -/
def F32.sub : F32 → F32 → F32
  | .nan, _ => .nan
  | _, .nan => .nan
  | .inf s, .inf t => if s = t then .nan else .inf s
  | .inf s, .finite _ => .inf s
  | .finite _, .inf t => .inf (!t)
  | .finite p, .finite q => .finite (p - q)

/-- IEEE-754 multiplication on the idealized domain (models Rust `f32` `*`). -/
def F32.mul : F32 → F32 → F32
  | .nan, _ => .nan
  | _, .nan => .nan
  | .inf s, .inf t => .inf (xor s t)
  | .inf s, .finite q => if q = 0 then .nan else .inf (xor s (decide (q < 0)))
  | .finite q, .inf t => if q = 0 then .nan else .inf (xor (decide (q < 0)) t)
  | .finite p, .finite q => .finite (p * q)

/-- IEEE-754 division on the idealized domain (models Rust `f32` `/`):
division of a nonzero finite value by zero yields a signed infinity, `0/0`
yields NaN, never an error. -/
def F32.div : F32 → F32 → F32
  | .nan, _ => .nan
  | _, .nan => .nan
  | .inf _, .inf _ => .nan
  | .inf s, .finite q => .inf (xor s (decide (q < 0)))
  | .finite _, .inf _ => .finite 0
  | .finite p, .finite q =>
      if q = 0 then (if p = 0 then .nan else .inf (decide (p < 0)))
      else .finite (p / q)

/-- Textual form of a value, mirroring Rust's `Display` for `f32` on the
values exercised by this development (integral values print with no decimal
point, as Rust's shortest-representation formatting does). -/
def F32.render : F32 → String
  | .nan => "NaN"
  | .inf false => "inf"
  | .inf true => "-inf"
  | .finite q => if q.den = 1 then toString q.num else toString q

/-- The payload of one instruction, mirroring the `ConstantOp`/`AddOp`/
`SubOp`/`MulOp`/`DivOp` structs of src/src/operation/instruction.rs. -/
inductive IOp where
  | constantOp (value : F32) : IOp
  | addOp (a b : Nat) : IOp
  | subOp (a b : Nat) : IOp
  | mulOp (a b : Nat) : IOp
  | divOp (a b : Nat) : IOp
deriving DecidableEq, Repr

/-- One three-address instruction: payload plus destination slot, mirroring
`Instruction { op, ret }`. -/
structure Instruction where
  op : IOp
  ret : Nat
deriving DecidableEq, Repr

namespace instruction

/-- Mirrors `instruction::constant`. -/
def constant (value : F32) (ret : Nat) : Instruction := ⟨.constantOp value, ret⟩

/-- Mirrors `instruction::add`. -/
def add (a b ret : Nat) : Instruction := ⟨.addOp a b, ret⟩

/-- Mirrors `instruction::sub`. -/
def sub (a b ret : Nat) : Instruction := ⟨.subOp a b, ret⟩

/-- Mirrors `instruction::mul`. -/
def mul (a b ret : Nat) : Instruction := ⟨.mulOp a b, ret⟩

/-- Mirrors `instruction::div`. -/
def div (a b ret : Nat) : Instruction := ⟨.divOp a b, ret⟩

end instruction

/-- Textual form of an instruction payload, mirroring the `Display` impls of
`ConstantOp`/`AddOp`/`SubOp`/`MulOp`/`DivOp`. -/
def IOp.render : IOp → String
  | .constantOp v => "constant " ++ v.render
  | .addOp a b => "add %" ++ toString a ++ " %" ++ toString b
  | .subOp a b => "sub %" ++ toString a ++ " %" ++ toString b
  | .mulOp a b => "mul %" ++ toString a ++ " %" ++ toString b
  | .divOp a b => "div %" ++ toString a ++ " %" ++ toString b

/-- Textual form of an instruction, mirroring `Display for Instruction`:
`write!(f, "%{}: {}", self.ret, self.op)`. -/
def Instruction.render (ins : Instruction) : String :=
  "%" ++ toString ins.ret ++ ": " ++ ins.op.render

/-- Mirrors `enum CompileResult`. -/
inductive CompileResult where
  | alreadyCompiled (ret : Nat) : CompileResult
  | compiled (instructions : List Instruction) (ret : Nat) : CompileResult
deriving DecidableEq, Repr

namespace CompileResult

/-- Mirrors `CompileResult::get_ret`. -/
def get_ret : CompileResult → Nat
  | .alreadyCompiled ret => ret
  | .compiled _ ret => ret

/-- Mirrors `CompileResult::get_instructions`. -/
def get_instructions : CompileResult → Option (List Instruction)
  | .alreadyCompiled _ => none
  | .compiled instructions _ => some instructions

/-- The instructions a child's compile result contributes to its parent:
`get_instructions().map(|i| instructions.extend(i))` extends by the list when
`Compiled` and by nothing when `AlreadyCompiled`. -/
def newInstructions (r : CompileResult) : List Instruction :=
  r.get_instructions.getD []

/-- Textual form, mirroring `Display for CompileResult`: each instruction
followed by a newline, then `ret <slot>`. -/
def render : CompileResult → String
  | .alreadyCompiled _ => "Compiled Already"
  | .compiled instructions ret =>
      (instructions.foldl (fun s ins => s ++ ins.render ++ "\n") "") ++
        "ret " ++ toString ret

@[simp] theorem newInstructions_alreadyCompiled (r : Nat) :
    (CompileResult.alreadyCompiled r).newInstructions = [] := rfl

@[simp] theorem newInstructions_compiled (l : List Instruction) (r : Nat) :
    (CompileResult.compiled l r).newInstructions = l := rfl

@[simp] theorem get_ret_alreadyCompiled (r : Nat) :
    (CompileResult.alreadyCompiled r).get_ret = r := rfl

@[simp] theorem get_ret_compiled (l : List Instruction) (r : Nat) :
    (CompileResult.compiled l r).get_ret = r := rfl

end CompileResult

/-- One operation node of the arena: the tagged union over the five node
kinds (`Constant`, `Add`, `Sub`, `Mul`, `Div`); binary kinds hold the arena
indices of their operand nodes (the embedded `Scalar` handles). -/
inductive Op where
  | constant (value : F32) : Op
  | add (a b : Nat) : Op
  | sub (a b : Nat) : Op
  | mul (a b : Nat) : Op
  | div (a b : Nat) : Op
deriving DecidableEq, Repr

/-- Operand indices of a node. -/
def Op.args : Op → List Nat
  | .constant _ => []
  | .add a b => [a, b]
  | .sub a b => [a, b]
  | .mul a b => [a, b]
  | .div a b => [a, b]

/-- Well-formed arena: every operand index is strictly smaller than the node
that references it.  This is exactly the acyclicity the Rust code enforces by
construction (a node only references handles created before it). -/
def WF (g : List Op) : Prop :=
  ∀ (i : Nat) (op : Op), g[i]? = some op → ∀ a ∈ op.args, a < i

/-- The mutable state threaded through one lowering pass: the per-node
`compile_ret` fields (`memo`) and the `(0..)` slot iterator (`counter`, the
next value the iterator yields). -/
structure CState where
  memo : List (Option Nat)
  counter : Nat
deriving DecidableEq, Repr

/-- Mirrors `Operation::execute` for each variant: a `Constant` returns its
stored value, a binary node returns the operator applied to its operands'
`execute` results.  Pure by construction: it reads neither `memo` nor
`counter` and returns no state.  Fuel-indexed; `none` is out-of-fuel or a
dangling index, neither reachable on a well-formed graph. -/
def Op.execute (g : List Op) : Nat → Nat → Option F32
  | 0, _ => none
  | fuel + 1, i =>
    match g[i]? with
    | none => none
    | some (.constant value) => some value
    | some (.add a b) =>
      match Op.execute g fuel a, Op.execute g fuel b with
      | some x, some y => some (F32.add x y)
      | _, _ => none
    | some (.sub a b) =>
      match Op.execute g fuel a, Op.execute g fuel b with
      | some x, some y => some (F32.sub x y)
      | _, _ => none
    | some (.mul a b) =>
      match Op.execute g fuel a, Op.execute g fuel b with
      | some x, some y => some (F32.mul x y)
      | _, _ => none
    | some (.div a b) =>
      match Op.execute g fuel a, Op.execute g fuel b with
      | some x, some y => some (F32.div x y)
      | _, _ => none

/-- Mirrors `Operation::compile` for each variant.  If the node's
`compile_ret` is set, return `AlreadyCompiled` at once without touching the
operands; otherwise a `Constant` draws one slot from the iterator, records it
and emits one load-constant instruction, and a binary node compiles `a` then
`b` (threading the state left to right), extends by each child's instructions
only when that child was `Compiled`, draws a slot, records it and appends its
own instruction.  Fuel-indexed as in `Op.execute`. -/
def Op.compile (g : List Op) : Nat → Nat → CState → Option (CompileResult × CState)
  | 0, _, _ => none
  | fuel + 1, i, st =>
    match g[i]? with
    | none => none
    | some op =>
      match st.memo.getD i none with
      | some ret => some (.alreadyCompiled ret, st)
      | none =>
        match op with
        | .constant value =>
          let ret := st.counter
          some (.compiled [instruction.constant value ret] ret,
            ⟨st.memo.set i (some ret), st.counter + 1⟩)
        | .add a b =>
          match Op.compile g fuel a st with
          | none => none
          | some (ra, st1) =>
            match Op.compile g fuel b st1 with
            | none => none
            | some (rb, st2) =>
              let instructions := ra.newInstructions ++ rb.newInstructions
              let ret := st2.counter
              some (.compiled
                (instructions ++ [instruction.add ra.get_ret rb.get_ret ret]) ret,
                ⟨st2.memo.set i (some ret), st2.counter + 1⟩)
        | .sub a b =>
          match Op.compile g fuel a st with
          | none => none
          | some (ra, st1) =>
            match Op.compile g fuel b st1 with
            | none => none
            | some (rb, st2) =>
              let instructions := ra.newInstructions ++ rb.newInstructions
              let ret := st2.counter
              some (.compiled
                (instructions ++ [instruction.sub ra.get_ret rb.get_ret ret]) ret,
                ⟨st2.memo.set i (some ret), st2.counter + 1⟩)
        | .mul a b =>
          match Op.compile g fuel a st with
          | none => none
          | some (ra, st1) =>
            match Op.compile g fuel b st1 with
            | none => none
            | some (rb, st2) =>
              let instructions := ra.newInstructions ++ rb.newInstructions
              let ret := st2.counter
              some (.compiled
                (instructions ++ [instruction.mul ra.get_ret rb.get_ret ret]) ret,
                ⟨st2.memo.set i (some ret), st2.counter + 1⟩)
        | .div a b =>
          match Op.compile g fuel a st with
          | none => none
          | some (ra, st1) =>
            match Op.compile g fuel b st1 with
            | none => none
            | some (rb, st2) =>
              let instructions := ra.newInstructions ++ rb.newInstructions
              let ret := st2.counter
              some (.compiled
                (instructions ++ [instruction.div ra.get_ret rb.get_ret ret]) ret,
                ⟨st2.memo.set i (some ret), st2.counter + 1⟩)

/-- The memo state of a freshly constructed, never-lowered expression: every
node's `compile_ret` is `None`. -/
def freshMemo (g : List Op) : List (Option Nat) :=
  List.replicate g.length none

/-- Mirrors `Scalar::execute` on the handle for node `root`. -/
def Scalar.execute (g : List Op) (root : Nat) : Option F32 :=
  Op.execute g (root + 1) root

/-- Mirrors `Scalar::compile`: build a fresh `(0..)` iterator, compile the
root against the given memo state, return the instruction list of a
`Compiled` result and discard the result slot.  The `AlreadyCompiled` branch
is `unreachable!()` in the source; both it and fuel exhaustion are modelled
as `none` (panic). -/
def Scalar.compile (g : List Op) (root : Nat) (memo0 : List (Option Nat)) :
    Option (List Instruction) :=
  match Op.compile g (root + 1) root ⟨memo0, 0⟩ with
  | some (.compiled instructions _, _) => some instructions
  | _ => none

/-- A slot-indexed store for interpreting a lowered program. -/
def Store : Type := Nat → Option F32

/-- The store with every slot undefined. -/
def Store.empty : Store := fun _ => none

/-- Write one slot of a store. -/
def Store.update (σ : Store) (k : Nat) (v : F32) : Store :=
  fun j => if j = k then some v else σ j

/-- Value an instruction payload computes against a store; `none` when an
operand slot is undefined. -/
def IOp.eval (σ : Store) : IOp → Option F32
  | .constantOp v => some v
  | .addOp a b =>
    match σ a, σ b with
    | some x, some y => some (F32.add x y)
    | _, _ => none
  | .subOp a b =>
    match σ a, σ b with
    | some x, some y => some (F32.sub x y)
    | _, _ => none
  | .mulOp a b =>
    match σ a, σ b with
    | some x, some y => some (F32.mul x y)
    | _, _ => none
  | .divOp a b =>
    match σ a, σ b with
    | some x, some y => some (F32.div x y)
    | _, _ => none

/-- Execute one instruction: evaluate the payload and write the destination
slot. -/
def execStep (σ : Store) (ins : Instruction) : Option Store :=
  (ins.op.eval σ).map (σ.update ins.ret)

/-- Execute a program in order, starting from the given store. -/
def execProgram : Store → List Instruction → Option Store
  | σ, [] => some σ
  | σ, ins :: rest =>
    match execStep σ ins with
    | none => none
    | some σ' => execProgram σ' rest

/-! Helper lemmas about memo lists, stores and programs. -/

theorem getD_set_self (l : List (Option Nat)) (i : Nat) (x : Option Nat)
    (h : i < l.length) : (l.set i x).getD i none = x := by
  rw [List.getD_eq_getElem?_getD, List.getElem?_set_self h]
  rfl

theorem getD_set_ne (l : List (Option Nat)) (i k : Nat) (x : Option Nat)
    (h : k ≠ i) : (l.set i x).getD k none = l.getD k none := by
  rw [List.getD_eq_getElem?_getD, List.getElem?_set_ne (Ne.symm h),
    ← List.getD_eq_getElem?_getD]

theorem getD_freshMemo (g : List Op) (k : Nat) : (freshMemo g).getD k none = none := by
  rw [freshMemo, List.getD_eq_getElem?_getD]
  rcases Nat.lt_or_ge k g.length with h | h
  · rw [List.getElem?_replicate_of_lt h]
    rfl
  · rw [List.getElem?_eq_none (by simpa using h)]
    rfl

theorem countP_set_none (l : List (Option Nat)) (i r : Nat)
    (h : l.getD i none = none) (hi : i < l.length) :
    (l.set i (some r)).countP Option.isSome = l.countP Option.isSome + 1 := by
  induction l generalizing i with
  | nil => simp at hi
  | cons a l ih =>
    cases i with
    | zero =>
      have ha : a = none := by simpa [List.getD] using h
      subst ha
      simp [List.countP_cons]
    | succ i =>
      have h' : l.getD i none = none := by simpa [List.getD] using h
      simp only [List.set, List.countP_cons]
      rw [ih i h' (by simpa using hi)]
      omega

theorem countP_freshMemo (g : List Op) : (freshMemo g).countP Option.isSome = 0 := by
  rw [freshMemo]
  induction g.length with
  | zero => rfl
  | succ n ih => simp [List.replicate_succ, List.countP_cons, ih]

theorem execProgram_append (P Q : List Instruction) (σ : Store) :
    execProgram σ (P ++ Q) = (execProgram σ P).bind (fun σ' => execProgram σ' Q) := by
  induction P generalizing σ with
  | nil => simp [execProgram]
  | cons ins P ih =>
    simp only [List.cons_append, execProgram]
    cases execStep σ ins with
    | none => rfl
    | some σ' => exact ih σ'

theorem Store.update_self (σ : Store) (k : Nat) (v : F32) :
    σ.update k v k = some v := by
  simp [Store.update]

theorem Store.update_ne (σ : Store) (k j : Nat) (v : F32) (h : j ≠ k) :
    σ.update k v j = σ j := by
  simp [Store.update, h]

/-! Basic facts about `Op.execute`: the fuel argument is irrelevant once it
exceeds the node index, and on a well-formed graph evaluation always
succeeds. -/

theorem execute_canon (g : List Op) (hwf : WF g) :
    ∀ i, i < g.length → ∃ v, ∀ f, i < f → Op.execute g f i = some v := by
  intro i
  induction i using Nat.strong_induction_on with
  | _ i ih =>
    intro hi
    have hg : g[i]? = some g[i] := List.getElem?_eq_getElem hi
    cases hop : g[i] with
    | constant v =>
      refine ⟨v, fun f hf => ?_⟩
      match f, hf with
      | f + 1, _ => simp [Op.execute, hop ▸ hg]
    | add a b =>
      have ha : a < i := hwf i _ (hop ▸ hg) a (by simp [Op.args])
      have hb : b < i := hwf i _ (hop ▸ hg) b (by simp [Op.args])
      obtain ⟨va, hva⟩ := ih a ha (by omega)
      obtain ⟨vb, hvb⟩ := ih b hb (by omega)
      refine ⟨F32.add va vb, fun f hf => ?_⟩
      match f, hf with
      | f + 1, _ => simp [Op.execute, hop ▸ hg, hva f (by omega), hvb f (by omega)]
    | sub a b =>
      have ha : a < i := hwf i _ (hop ▸ hg) a (by simp [Op.args])
      have hb : b < i := hwf i _ (hop ▸ hg) b (by simp [Op.args])
      obtain ⟨va, hva⟩ := ih a ha (by omega)
      obtain ⟨vb, hvb⟩ := ih b hb (by omega)
      refine ⟨F32.sub va vb, fun f hf => ?_⟩
      match f, hf with
      | f + 1, _ => simp [Op.execute, hop ▸ hg, hva f (by omega), hvb f (by omega)]
    | mul a b =>
      have ha : a < i := hwf i _ (hop ▸ hg) a (by simp [Op.args])
      have hb : b < i := hwf i _ (hop ▸ hg) b (by simp [Op.args])
      obtain ⟨va, hva⟩ := ih a ha (by omega)
      obtain ⟨vb, hvb⟩ := ih b hb (by omega)
      refine ⟨F32.mul va vb, fun f hf => ?_⟩
      match f, hf with
      | f + 1, _ => simp [Op.execute, hop ▸ hg, hva f (by omega), hvb f (by omega)]
    | div a b =>
      have ha : a < i := hwf i _ (hop ▸ hg) a (by simp [Op.args])
      have hb : b < i := hwf i _ (hop ▸ hg) b (by simp [Op.args])
      obtain ⟨va, hva⟩ := ih a ha (by omega)
      obtain ⟨vb, hvb⟩ := ih b hb (by omega)
      refine ⟨F32.div va vb, fun f hf => ?_⟩
      match f, hf with
      | f + 1, _ => simp [Op.execute, hop ▸ hg, hva f (by omega), hvb f (by omega)]

theorem execute_total (g : List Op) (hwf : WF g) (i : Nat) (hi : i < g.length) :
    ∃ v, Op.execute g (i + 1) i = some v := by
  obtain ⟨v, hv⟩ := execute_canon g hwf i hi
  exact ⟨v, hv (i + 1) (by omega)⟩

theorem execute_fuel_irrel (g : List Op) (hwf : WF g) (i : Nat) (hi : i < g.length)
    (f f' : Nat) (hf : i < f) (hf' : i < f') :
    Op.execute g f i = Op.execute g f' i := by
  obtain ⟨v, hv⟩ := execute_canon g hwf i hi
  rw [hv f hf, hv f' hf']

/-! Unfolding lemmas for `Op.compile`, one per source branch. -/

theorem compile_memo_some (g : List Op) (fuel i : Nat) (st : CState) (op : Op) (r : Nat)
    (hg : g[i]? = some op) (hm : st.memo.getD i none = some r) :
    Op.compile g (fuel + 1) i st = some (.alreadyCompiled r, st) := by
  rw [List.getD_eq_getElem?_getD] at hm
  simp [Op.compile, hg, hm]

theorem compile_constant_eq (g : List Op) (fuel i : Nat) (st : CState) (value : F32)
    (hg : g[i]? = some (.constant value)) (hm : st.memo.getD i none = none) :
    Op.compile g (fuel + 1) i st =
      some (.compiled [instruction.constant value st.counter] st.counter,
        ⟨st.memo.set i (some st.counter), st.counter + 1⟩) := by
  rw [List.getD_eq_getElem?_getD] at hm
  simp [Op.compile, hg, hm]

theorem compile_add_eq (g : List Op) (fuel i a b : Nat) (st st1 st2 : CState)
    (ra rb : CompileResult)
    (hg : g[i]? = some (.add a b)) (hm : st.memo.getD i none = none)
    (hca : Op.compile g fuel a st = some (ra, st1))
    (hcb : Op.compile g fuel b st1 = some (rb, st2)) :
    Op.compile g (fuel + 1) i st =
      some (.compiled (ra.newInstructions ++ (rb.newInstructions ++
          [instruction.add ra.get_ret rb.get_ret st2.counter])) st2.counter,
        ⟨st2.memo.set i (some st2.counter), st2.counter + 1⟩) := by
  rw [List.getD_eq_getElem?_getD] at hm
  simp [Op.compile, hg, hm, hca, hcb]

theorem compile_sub_eq (g : List Op) (fuel i a b : Nat) (st st1 st2 : CState)
    (ra rb : CompileResult)
    (hg : g[i]? = some (.sub a b)) (hm : st.memo.getD i none = none)
    (hca : Op.compile g fuel a st = some (ra, st1))
    (hcb : Op.compile g fuel b st1 = some (rb, st2)) :
    Op.compile g (fuel + 1) i st =
      some (.compiled (ra.newInstructions ++ (rb.newInstructions ++
          [instruction.sub ra.get_ret rb.get_ret st2.counter])) st2.counter,
        ⟨st2.memo.set i (some st2.counter), st2.counter + 1⟩) := by
  rw [List.getD_eq_getElem?_getD] at hm
  simp [Op.compile, hg, hm, hca, hcb]

theorem compile_mul_eq (g : List Op) (fuel i a b : Nat) (st st1 st2 : CState)
    (ra rb : CompileResult)
    (hg : g[i]? = some (.mul a b)) (hm : st.memo.getD i none = none)
    (hca : Op.compile g fuel a st = some (ra, st1))
    (hcb : Op.compile g fuel b st1 = some (rb, st2)) :
    Op.compile g (fuel + 1) i st =
      some (.compiled (ra.newInstructions ++ (rb.newInstructions ++
          [instruction.mul ra.get_ret rb.get_ret st2.counter])) st2.counter,
        ⟨st2.memo.set i (some st2.counter), st2.counter + 1⟩) := by
  rw [List.getD_eq_getElem?_getD] at hm
  simp [Op.compile, hg, hm, hca, hcb]

theorem compile_div_eq (g : List Op) (fuel i a b : Nat) (st st1 st2 : CState)
    (ra rb : CompileResult)
    (hg : g[i]? = some (.div a b)) (hm : st.memo.getD i none = none)
    (hca : Op.compile g fuel a st = some (ra, st1))
    (hcb : Op.compile g fuel b st1 = some (rb, st2)) :
    Op.compile g (fuel + 1) i st =
      some (.compiled (ra.newInstructions ++ (rb.newInstructions ++
          [instruction.div ra.get_ret rb.get_ret st2.counter])) st2.counter,
        ⟨st2.memo.set i (some st2.counter), st2.counter + 1⟩) := by
  rw [List.getD_eq_getElem?_getD] at hm
  simp [Op.compile, hg, hm, hca, hcb]

/-! Node-level evaluation and single-step facts used by the simulation. -/

theorem execute_add_node (g : List Op) (hwf : WF g) (i a b : Nat) (hi : i < g.length)
    (hg : g[i]? = some (.add a b)) (va vb : F32)
    (hva : Op.execute g (a + 1) a = some va) (hvb : Op.execute g (b + 1) b = some vb) :
    Op.execute g (i + 1) i = some (F32.add va vb) := by
  have ha : a < i := hwf i _ hg a (by simp [Op.args])
  have hb : b < i := hwf i _ hg b (by simp [Op.args])
  have ha' : Op.execute g i a = some va := by
    rw [execute_fuel_irrel g hwf a (by omega) i (a + 1) (by omega) (by omega)]
    exact hva
  have hb' : Op.execute g i b = some vb := by
    rw [execute_fuel_irrel g hwf b (by omega) i (b + 1) (by omega) (by omega)]
    exact hvb
  simp [Op.execute, hg, ha', hb']

theorem execute_sub_node (g : List Op) (hwf : WF g) (i a b : Nat) (hi : i < g.length)
    (hg : g[i]? = some (.sub a b)) (va vb : F32)
    (hva : Op.execute g (a + 1) a = some va) (hvb : Op.execute g (b + 1) b = some vb) :
    Op.execute g (i + 1) i = some (F32.sub va vb) := by
  have ha : a < i := hwf i _ hg a (by simp [Op.args])
  have hb : b < i := hwf i _ hg b (by simp [Op.args])
  have ha' : Op.execute g i a = some va := by
    rw [execute_fuel_irrel g hwf a (by omega) i (a + 1) (by omega) (by omega)]
    exact hva
  have hb' : Op.execute g i b = some vb := by
    rw [execute_fuel_irrel g hwf b (by omega) i (b + 1) (by omega) (by omega)]
    exact hvb
  simp [Op.execute, hg, ha', hb']

theorem execute_mul_node (g : List Op) (hwf : WF g) (i a b : Nat) (hi : i < g.length)
    (hg : g[i]? = some (.mul a b)) (va vb : F32)
    (hva : Op.execute g (a + 1) a = some va) (hvb : Op.execute g (b + 1) b = some vb) :
    Op.execute g (i + 1) i = some (F32.mul va vb) := by
  have ha : a < i := hwf i _ hg a (by simp [Op.args])
  have hb : b < i := hwf i _ hg b (by simp [Op.args])
  have ha' : Op.execute g i a = some va := by
    rw [execute_fuel_irrel g hwf a (by omega) i (a + 1) (by omega) (by omega)]
    exact hva
  have hb' : Op.execute g i b = some vb := by
    rw [execute_fuel_irrel g hwf b (by omega) i (b + 1) (by omega) (by omega)]
    exact hvb
  simp [Op.execute, hg, ha', hb']

theorem execute_div_node (g : List Op) (hwf : WF g) (i a b : Nat) (hi : i < g.length)
    (hg : g[i]? = some (.div a b)) (va vb : F32)
    (hva : Op.execute g (a + 1) a = some va) (hvb : Op.execute g (b + 1) b = some vb) :
    Op.execute g (i + 1) i = some (F32.div va vb) := by
  have ha : a < i := hwf i _ hg a (by simp [Op.args])
  have hb : b < i := hwf i _ hg b (by simp [Op.args])
  have ha' : Op.execute g i a = some va := by
    rw [execute_fuel_irrel g hwf a (by omega) i (a + 1) (by omega) (by omega)]
    exact hva
  have hb' : Op.execute g i b = some vb := by
    rw [execute_fuel_irrel g hwf b (by omega) i (b + 1) (by omega) (by omega)]
    exact hvb
  simp [Op.execute, hg, ha', hb']

theorem step_add (σ : Store) (sa sb r : Nat) (x y : F32)
    (hx : σ sa = some x) (hy : σ sb = some y) :
    execStep σ (instruction.add sa sb r) = some (σ.update r (F32.add x y)) := by
  simp [execStep, instruction.add, IOp.eval, hx, hy]

theorem step_sub (σ : Store) (sa sb r : Nat) (x y : F32)
    (hx : σ sa = some x) (hy : σ sb = some y) :
    execStep σ (instruction.sub sa sb r) = some (σ.update r (F32.sub x y)) := by
  simp [execStep, instruction.sub, IOp.eval, hx, hy]

theorem step_mul (σ : Store) (sa sb r : Nat) (x y : F32)
    (hx : σ sa = some x) (hy : σ sb = some y) :
    execStep σ (instruction.mul sa sb r) = some (σ.update r (F32.mul x y)) := by
  simp [execStep, instruction.mul, IOp.eval, hx, hy]

theorem step_div (σ : Store) (sa sb r : Nat) (x y : F32)
    (hx : σ sa = some x) (hy : σ sb = some y) :
    execStep σ (instruction.div sa sb r) = some (σ.update r (F32.div x y)) := by
  simp [execStep, instruction.div, IOp.eval, hx, hy]

/-- The lowering-pass invariant: the counter equals the number of emitted
instructions, each emitted instruction's destination is its own position in
the program, the number of memoized nodes equals the counter, the program
runs, and every memoized node's slot holds that node's `execute` value in the
resulting store. -/
structure Inv (g : List Op) (st : CState) (P : List Instruction) : Prop where
  memo_len : st.memo.length = g.length
  counter_eq : st.counter = P.length
  dst_pos : ∀ (j : Nat) (ins : Instruction), P[j]? = some ins → ins.ret = j
  memo_count : st.memo.countP Option.isSome = st.counter
  runs : ∃ σ, execProgram Store.empty P = some σ
  memo_ok : ∀ i s, st.memo.getD i none = some s →
    s < st.counter ∧
    ∃ v, Op.execute g (i + 1) i = some v ∧
      ∀ σ, execProgram Store.empty P = some σ → σ s = some v

theorem Inv_init (g : List Op) : Inv g ⟨freshMemo g, 0⟩ [] := by
  refine ⟨by simp [freshMemo], rfl, ?_, countP_freshMemo g, ⟨Store.empty, rfl⟩, ?_⟩
  · intro j ins hj
    simp at hj
  · intro i s h
    rw [getD_freshMemo] at h
    cases h

theorem dst_pos_concat (P : List Instruction) (c : Instruction)
    (hP : ∀ (j : Nat) (ins : Instruction), P[j]? = some ins → ins.ret = j)
    (hc : c.ret = P.length) :
    ∀ (j : Nat) (ins : Instruction), (P ++ [c])[j]? = some ins → ins.ret = j := by
  intro j ins hj
  rcases Nat.lt_trichotomy j P.length with h | h | h
  · rw [List.getElem?_append_left h] at hj
    exact hP j ins hj
  · subst h
    rw [List.getElem?_concat_length] at hj
    cases hj
    exact hc
  · rw [List.getElem?_eq_none (by simp; omega)] at hj
    cases hj

/-- What one recursive `compile` call guarantees: it succeeds, preserves the
invariant with its new instructions appended, leaves the node memoized at the
returned slot, never unsets or changes an already-set memo, touches no memo
entry above the node, and its result is `AlreadyCompiled` exactly on a
previously-memoized node (a `Compiled` result ends in the node's own
instruction, whose destination is the drawn slot). -/
def SimConcl (g : List Op) (fuel i : Nat) (st : CState) (P : List Instruction) : Prop :=
  ∃ res st', Op.compile g fuel i st = some (res, st') ∧
    Inv g st' (P ++ res.newInstructions) ∧
    st'.memo.getD i none = some res.get_ret ∧
    (∀ k s, st.memo.getD k none = some s → st'.memo.getD k none = some s) ∧
    (∀ k, i < k → st.memo.getD k none = none → st'.memo.getD k none = none) ∧
    (∀ r, res = .alreadyCompiled r → st' = st ∧ st.memo.getD i none = some r) ∧
    (∀ ins r, res = .compiled ins r →
      st.memo.getD i none = none ∧ r + 1 = st'.counter ∧
      ∃ last, ins.getLast? = some last ∧ last.ret = r)

theorem already_sim (g : List Op) (fuel i : Nat) (st : CState) (P : List Instruction)
    (op : Op) (r : Nat) (hg : g[i]? = some op) (hm : st.memo.getD i none = some r)
    (hInv : Inv g st P) : SimConcl g (fuel + 1) i st P := by
  refine ⟨.alreadyCompiled r, st, compile_memo_some g fuel i st op r hg hm,
    ?_, ?_, ?_, ?_, ?_, ?_⟩
  · simpa [CompileResult.newInstructions, CompileResult.get_instructions] using hInv
  · simpa [CompileResult.get_ret] using hm
  · intro k s hk
    exact hk
  · intro k _ hk
    exact hk
  · intro r' h
    cases h
    exact ⟨rfl, hm⟩
  · intro ins r' h
    simp at h

theorem const_sim (g : List Op) (fuel i : Nat) (v : F32) (st : CState)
    (P : List Instruction) (hi : i < g.length) (hg : g[i]? = some (.constant v))
    (hm : st.memo.getD i none = none) (hInv : Inv g st P) :
    SimConcl g (fuel + 1) i st P := by
  have hilen : i < st.memo.length := by
    rw [hInv.memo_len]
    exact hi
  obtain ⟨σ, hσ⟩ := hInv.runs
  have hc : Instruction.ret (instruction.constant v st.counter) = st.counter := rfl
  have hstep1 : execStep σ (instruction.constant v st.counter) =
      some (σ.update st.counter v) := by
    simp [execStep, instruction.constant, IOp.eval]
  have hrun' : execProgram Store.empty (P ++ [instruction.constant v st.counter]) =
      some (σ.update st.counter v) := by
    rw [execProgram_append, hσ]
    simp [execProgram, hstep1]
  have hexe : Op.execute g (i + 1) i = some v := by
    simp [Op.execute, hg]
  refine ⟨.compiled [instruction.constant v st.counter] st.counter,
    ⟨st.memo.set i (some st.counter), st.counter + 1⟩,
    compile_constant_eq g fuel i st v hg hm, ?_, ?_, ?_, ?_, ?_, ?_⟩
  · simp only [CompileResult.newInstructions_compiled]
    refine ⟨by simpa using hInv.memo_len, by simp [hInv.counter_eq], ?_, ?_, ?_, ?_⟩
    · exact dst_pos_concat P _ hInv.dst_pos (by rw [hc, hInv.counter_eq])
    · rw [countP_set_none st.memo i st.counter hm hilen, hInv.memo_count]
    · exact ⟨σ.update st.counter v, hrun'⟩
    · intro k s hk
      by_cases hki : k = i
      · subst hki
        rw [getD_set_self st.memo k (some st.counter) hilen] at hk
        cases hk
        refine ⟨Nat.lt_succ_self _, v, hexe, ?_⟩
        intro σ' hσ'
        rw [hrun'] at hσ'
        cases hσ'
        exact Store.update_self σ st.counter v
      · rw [getD_set_ne st.memo i k (some st.counter) hki] at hk
        obtain ⟨hlt, w, hw, hσw⟩ := hInv.memo_ok k s hk
        refine ⟨Nat.lt_succ_of_lt hlt, w, hw, ?_⟩
        intro σ' hσ'
        rw [hrun'] at hσ'
        cases hσ'
        rw [Store.update_ne σ st.counter s v (by omega)]
        exact hσw σ hσ
  · rw [getD_set_self st.memo i (some st.counter) hilen]
    rfl
  · intro k s hk
    have hki : k ≠ i := by
      intro h
      rw [h, hm] at hk
      cases hk
    rw [getD_set_ne st.memo i k (some st.counter) hki]
    exact hk
  · intro k hik hk
    rw [getD_set_ne st.memo i k (some st.counter) (by omega)]
    exact hk
  · intro r h
    simp at h
  · intro ins r h
    cases h
    exact ⟨hm, rfl, instruction.constant v st.counter, rfl, rfl⟩

theorem bin_sim (g : List Op) (fuel i a b : Nat) (st : CState) (P : List Instruction)
    (f : F32 → F32 → F32) (mk : Nat → Nat → Nat → Instruction)
    (hi : i < g.length) (ha : a < i) (hb : b < i)
    (hm : st.memo.getD i none = none) (hInv : Inv g st P)
    (hcomp : ∀ (ra rb : CompileResult) (st1 st2 : CState),
      Op.compile g fuel a st = some (ra, st1) →
      Op.compile g fuel b st1 = some (rb, st2) →
      Op.compile g (fuel + 1) i st =
        some (.compiled (ra.newInstructions ++ (rb.newInstructions ++
            [mk ra.get_ret rb.get_ret st2.counter])) st2.counter,
          ⟨st2.memo.set i (some st2.counter), st2.counter + 1⟩))
    (hexec : ∀ va vb, Op.execute g (a + 1) a = some va →
      Op.execute g (b + 1) b = some vb → Op.execute g (i + 1) i = some (f va vb))
    (hstep : ∀ (σ : Store) (sa sb r : Nat) (x y : F32), σ sa = some x → σ sb = some y →
      execStep σ (mk sa sb r) = some (σ.update r (f x y)))
    (hret : ∀ sa sb r, (mk sa sb r).ret = r)
    (ihA : ∀ (st' : CState) (P' : List Instruction), Inv g st' P' → SimConcl g fuel a st' P')
    (ihB : ∀ (st' : CState) (P' : List Instruction), Inv g st' P' → SimConcl g fuel b st' P') :
    SimConcl g (fuel + 1) i st P := by
  obtain ⟨ra, st1, hca, hInv1, hmema, hmonoA, hhighA, -, -⟩ := ihA st P hInv
  obtain ⟨rb, st2, hcb, hInv2, hmemb, hmonoB, hhighB, -, -⟩ :=
    ihB st1 (P ++ ra.newInstructions) hInv1
  have hmema2 : st2.memo.getD a none = some ra.get_ret := hmonoB a ra.get_ret hmema
  have hm1 : st1.memo.getD i none = none := hhighA i ha hm
  have hm2 : st2.memo.getD i none = none := hhighB i hb hm1
  have hi2 : i < st2.memo.length := by
    rw [hInv2.memo_len]
    exact hi
  obtain ⟨σ2, hσ2⟩ := hInv2.runs
  obtain ⟨hsa_lt, va, hva, hσa⟩ := hInv2.memo_ok a ra.get_ret hmema2
  obtain ⟨hsb_lt, vb, hvb, hσb⟩ := hInv2.memo_ok b rb.get_ret hmemb
  have hσ2a : σ2 ra.get_ret = some va := hσa σ2 hσ2
  have hσ2b : σ2 rb.get_ret = some vb := hσb σ2 hσ2
  have hstep1 : execStep σ2 (mk ra.get_ret rb.get_ret st2.counter) =
      some (σ2.update st2.counter (f va vb)) :=
    hstep σ2 ra.get_ret rb.get_ret st2.counter va vb hσ2a hσ2b
  have hrun' : execProgram Store.empty
      ((P ++ ra.newInstructions ++ rb.newInstructions) ++
        [mk ra.get_ret rb.get_ret st2.counter]) =
      some (σ2.update st2.counter (f va vb)) := by
    rw [execProgram_append, hσ2]
    simp [execProgram, hstep1]
  have hassoc : P ++ (ra.newInstructions ++ (rb.newInstructions ++
      [mk ra.get_ret rb.get_ret st2.counter])) =
      (P ++ ra.newInstructions ++ rb.newInstructions) ++
        [mk ra.get_ret rb.get_ret st2.counter] := by
    simp [List.append_assoc]
  have hexe : Op.execute g (i + 1) i = some (f va vb) := hexec va vb hva hvb
  have hc2 : st2.counter = (P ++ ra.newInstructions ++ rb.newInstructions).length := by
    simpa [List.append_assoc] using hInv2.counter_eq
  refine ⟨.compiled (ra.newInstructions ++ (rb.newInstructions ++
      [mk ra.get_ret rb.get_ret st2.counter])) st2.counter,
    ⟨st2.memo.set i (some st2.counter), st2.counter + 1⟩,
    hcomp ra rb st1 st2 hca hcb, ?_, ?_, ?_, ?_, ?_, ?_⟩
  · simp only [CompileResult.newInstructions_compiled]
    rw [hassoc]
    refine ⟨by simpa using hInv2.memo_len, by simp [hc2]; omega, ?_, ?_, ?_, ?_⟩
    · refine dst_pos_concat _ _ ?_ (by rw [hret, hc2])
      intro j ins hj
      refine hInv2.dst_pos j ins ?_
      simpa [List.append_assoc] using hj
    · rw [countP_set_none st2.memo i st2.counter hm2 hi2, hInv2.memo_count]
    · exact ⟨σ2.update st2.counter (f va vb), hrun'⟩
    · intro k s hk
      by_cases hki : k = i
      · subst hki
        rw [getD_set_self st2.memo k (some st2.counter) hi2] at hk
        cases hk
        refine ⟨Nat.lt_succ_self _, f va vb, hexe, ?_⟩
        intro σ' hσ'
        rw [hrun'] at hσ'
        cases hσ'
        exact Store.update_self σ2 st2.counter (f va vb)
      · rw [getD_set_ne st2.memo i k (some st2.counter) hki] at hk
        obtain ⟨hlt, w, hw, hσw⟩ := hInv2.memo_ok k s hk
        refine ⟨Nat.lt_succ_of_lt hlt, w, hw, ?_⟩
        intro σ' hσ'
        rw [hrun'] at hσ'
        cases hσ'
        rw [Store.update_ne σ2 st2.counter s (f va vb) (by omega)]
        refine hσw σ2 ?_
        exact hσ2
  · rw [getD_set_self st2.memo i (some st2.counter) hi2]
    rfl
  · intro k s hk
    have hki : k ≠ i := by
      intro h
      rw [h, hm] at hk
      cases hk
    rw [getD_set_ne st2.memo i k (some st2.counter) hki]
    exact hmonoB k s (hmonoA k s hk)
  · intro k hik hk
    rw [getD_set_ne st2.memo i k (some st2.counter) (by omega)]
    exact hhighB k (by omega) (hhighA k (by omega) hk)
  · intro r h
    simp at h
  · intro ins r h
    cases h
    refine ⟨hm, rfl, mk ra.get_ret rb.get_ret st2.counter, ?_, hret _ _ _⟩
    rw [← List.append_assoc]
    exact List.getLast?_concat _

/-- Simulation theorem for one recursive `compile` call: on a well-formed
graph, with enough fuel, starting from any state satisfying the lowering
invariant, the call succeeds and guarantees `SimConcl`. -/
theorem compile_sim (g : List Op) (hwf : WF g) :
    ∀ fuel i st P, i < fuel → i < g.length → Inv g st P → SimConcl g fuel i st P := by
  intro fuel
  induction fuel with
  | zero =>
    intro i st P hif
    exact absurd hif (Nat.not_lt_zero i)
  | succ fuel ih =>
    intro i st P hif hi hInv
    have hg : g[i]? = some g[i] := List.getElem?_eq_getElem hi
    cases hm : st.memo.getD i none with
    | some r => exact already_sim g fuel i st P g[i] r hg hm hInv
    | none =>
      cases hop : g[i] with
      | constant v => exact const_sim g fuel i v st P hi (hop ▸ hg) hm hInv
      | add a b =>
        have ha : a < i := hwf i _ (hop ▸ hg) a (by simp [Op.args])
        have hb : b < i := hwf i _ (hop ▸ hg) b (by simp [Op.args])
        exact bin_sim g fuel i a b st P F32.add instruction.add hi ha hb hm hInv
          (fun ra rb st1 st2 hca hcb =>
            compile_add_eq g fuel i a b st st1 st2 ra rb (hop ▸ hg) hm hca hcb)
          (fun va vb hva hvb =>
            execute_add_node g hwf i a b hi (hop ▸ hg) va vb hva hvb)
          (fun σ sa sb r x y hx hy => step_add σ sa sb r x y hx hy)
          (fun sa sb r => rfl)
          (fun st' P' hInv' => ih a st' P' (by omega) (by omega) hInv')
          (fun st' P' hInv' => ih b st' P' (by omega) (by omega) hInv')
      | sub a b =>
        have ha : a < i := hwf i _ (hop ▸ hg) a (by simp [Op.args])
        have hb : b < i := hwf i _ (hop ▸ hg) b (by simp [Op.args])
        exact bin_sim g fuel i a b st P F32.sub instruction.sub hi ha hb hm hInv
          (fun ra rb st1 st2 hca hcb =>
            compile_sub_eq g fuel i a b st st1 st2 ra rb (hop ▸ hg) hm hca hcb)
          (fun va vb hva hvb =>
            execute_sub_node g hwf i a b hi (hop ▸ hg) va vb hva hvb)
          (fun σ sa sb r x y hx hy => step_sub σ sa sb r x y hx hy)
          (fun sa sb r => rfl)
          (fun st' P' hInv' => ih a st' P' (by omega) (by omega) hInv')
          (fun st' P' hInv' => ih b st' P' (by omega) (by omega) hInv')
      | mul a b =>
        have ha : a < i := hwf i _ (hop ▸ hg) a (by simp [Op.args])
        have hb : b < i := hwf i _ (hop ▸ hg) b (by simp [Op.args])
        exact bin_sim g fuel i a b st P F32.mul instruction.mul hi ha hb hm hInv
          (fun ra rb st1 st2 hca hcb =>
            compile_mul_eq g fuel i a b st st1 st2 ra rb (hop ▸ hg) hm hca hcb)
          (fun va vb hva hvb =>
            execute_mul_node g hwf i a b hi (hop ▸ hg) va vb hva hvb)
          (fun σ sa sb r x y hx hy => step_mul σ sa sb r x y hx hy)
          (fun sa sb r => rfl)
          (fun st' P' hInv' => ih a st' P' (by omega) (by omega) hInv')
          (fun st' P' hInv' => ih b st' P' (by omega) (by omega) hInv')
      | div a b =>
        have ha : a < i := hwf i _ (hop ▸ hg) a (by simp [Op.args])
        have hb : b < i := hwf i _ (hop ▸ hg) b (by simp [Op.args])
        exact bin_sim g fuel i a b st P F32.div instruction.div hi ha hb hm hInv
          (fun ra rb st1 st2 hca hcb =>
            compile_div_eq g fuel i a b st st1 st2 ra rb (hop ▸ hg) hm hca hcb)
          (fun va vb hva hvb =>
            execute_div_node g hwf i a b hi (hop ▸ hg) va vb hva hvb)
          (fun σ sa sb r x y hx hy => step_div σ sa sb r x y hx hy)
          (fun sa sb r => rfl)
          (fun st' P' hInv' => ih a st' P' (by omega) (by omega) hInv')
          (fun st' P' hInv' => ih b st' P' (by omega) (by omega) hInv')

/-- Discharge `WF` by checking every node of a concrete graph. -/
theorem WF_of_fin (g : List Op)
    (h : ∀ (i : Fin g.length), ∀ a ∈ (g.get i).args, a < i.val) : WF g := by
  intro i op hgi a hai
  have hi : i < g.length := by
    by_contra hc
    rw [List.getElem?_eq_none (by omega)] at hgi
    cases hgi
  have hgop : g[i] = op := by
    have heq := List.getElem?_eq_getElem hi
    rw [heq] at hgi
    cases hgi
    rfl
  refine h ⟨i, hi⟩ a ?_
  rw [List.get_eq_getElem]
  simpa [hgop] using hai

/-- A program whose every instruction's destination is its own position has
destination list exactly `range (length)`: dense, gapless, strictly
increasing, each slot exactly once. -/
theorem dst_map_range (P : List Instruction)
    (h : ∀ (j : Nat) (ins : Instruction), P[j]? = some ins → ins.ret = j) :
    P.map Instruction.ret = List.range P.length := by
  apply List.ext_getElem?
  intro j
  rcases Nat.lt_or_ge j P.length with hj | hj
  · have hP : P[j]? = some P[j] := List.getElem?_eq_getElem hj
    rw [List.getElem?_map, hP, List.getElem?_range hj]
    simp [h j P[j] hP]
  · rw [List.getElem?_eq_none (by simpa using hj),
      List.getElem?_eq_none (by simpa using hj)]

/-- Master corollary of the simulation: a first-time top-level compile of a
well-formed expression succeeds with a `Compiled` result whose instruction
list satisfies the lowering invariant; running it defines the result slot
with the `execute` value; the result slot is the last slot drawn, and the
last instruction is the root's own. -/
theorem fresh_compile_spec (g : List Op) (hwf : WF g) (root : Nat)
    (hroot : root < g.length) :
    ∃ instrs ret st' σ v,
      Op.compile g (root + 1) root ⟨freshMemo g, 0⟩ =
        some (.compiled instrs ret, st') ∧
      Scalar.compile g root (freshMemo g) = some instrs ∧
      Inv g st' instrs ∧
      execProgram Store.empty instrs = some σ ∧
      Op.execute g (root + 1) root = some v ∧
      σ ret = some v ∧
      ret + 1 = instrs.length ∧
      st'.memo.getD root none = some ret ∧
      ∃ last, instrs.getLast? = some last ∧ last.ret = ret := by
  obtain ⟨res, st', hc, hInv', hmem, -, -, halready, hcompiled⟩ :=
    compile_sim g hwf (root + 1) root ⟨freshMemo g, 0⟩ []
      (Nat.lt_succ_self root) hroot (Inv_init g)
  cases res with
  | alreadyCompiled r =>
    obtain ⟨-, habs⟩ := halready r rfl
    rw [getD_freshMemo] at habs
    cases habs
  | compiled instrs ret =>
    obtain ⟨-, hretc, last, hlast, hlastret⟩ := hcompiled instrs ret rfl
    simp only [CompileResult.newInstructions_compiled, List.nil_append] at hInv'
    simp only [CompileResult.get_ret_compiled] at hmem
    obtain ⟨σ, hσ⟩ := hInv'.runs
    obtain ⟨hlt, v, hv, hσv⟩ := hInv'.memo_ok root ret hmem
    refine ⟨instrs, ret, st', σ, v, hc, ?_, hInv', hσ, hv, hσv σ hσ, ?_, hmem,
      last, hlast, hlastret⟩
    · simp [Scalar.compile, hc]
    · rw [hretc, hInv'.counter_eq]

/-! Inversion lemmas for `Op.compile`: reconstruct how a successful call was
produced, one per source branch. -/

theorem compile_some_node (g : List Op) (fuel i : Nat) (st : CState)
    (res : CompileResult) (st' : CState)
    (h : Op.compile g (fuel + 1) i st = some (res, st')) : ∃ op, g[i]? = some op := by
  cases hg : g[i]? with
  | none => simp [Op.compile, hg] at h
  | some op => exact ⟨op, rfl⟩

theorem compile_memo_some_inv (g : List Op) (fuel i : Nat) (st : CState) (op : Op) (r : Nat)
    (res : CompileResult) (st' : CState)
    (hg : g[i]? = some op) (hm : st.memo.getD i none = some r)
    (h : Op.compile g (fuel + 1) i st = some (res, st')) :
    res = .alreadyCompiled r ∧ st' = st := by
  rw [compile_memo_some g fuel i st op r hg hm] at h
  simp only [Option.some.injEq, Prod.mk.injEq] at h
  exact ⟨h.1.symm, h.2.symm⟩

theorem compile_constant_inv (g : List Op) (fuel i : Nat) (st : CState) (v : F32)
    (res : CompileResult) (st' : CState)
    (hg : g[i]? = some (.constant v)) (hm : st.memo.getD i none = none)
    (h : Op.compile g (fuel + 1) i st = some (res, st')) :
    res = .compiled [instruction.constant v st.counter] st.counter ∧
    st' = ⟨st.memo.set i (some st.counter), st.counter + 1⟩ := by
  rw [compile_constant_eq g fuel i st v hg hm] at h
  simp only [Option.some.injEq, Prod.mk.injEq] at h
  exact ⟨h.1.symm, h.2.symm⟩

theorem compile_add_inv (g : List Op) (fuel i a b : Nat) (st : CState)
    (res : CompileResult) (st' : CState)
    (hg : g[i]? = some (.add a b)) (hm : st.memo.getD i none = none)
    (h : Op.compile g (fuel + 1) i st = some (res, st')) :
    ∃ ra st1 rb st2, Op.compile g fuel a st = some (ra, st1) ∧
      Op.compile g fuel b st1 = some (rb, st2) ∧
      res = .compiled (ra.newInstructions ++ (rb.newInstructions ++
        [instruction.add ra.get_ret rb.get_ret st2.counter])) st2.counter ∧
      st' = ⟨st2.memo.set i (some st2.counter), st2.counter + 1⟩ := by
  have hm' := hm
  rw [List.getD_eq_getElem?_getD] at hm'
  cases hca : Op.compile g fuel a st with
  | none =>
    have hnone : Op.compile g (fuel + 1) i st = none := by
      simp [Op.compile, hg, hm', hca]
    rw [hnone] at h
    cases h
  | some pa =>
    obtain ⟨ra, st1⟩ := pa
    cases hcb : Op.compile g fuel b st1 with
    | none =>
      have hnone : Op.compile g (fuel + 1) i st = none := by
        simp [Op.compile, hg, hm', hca, hcb]
      rw [hnone] at h
      cases h
    | some pb =>
      obtain ⟨rb, st2⟩ := pb
      rw [compile_add_eq g fuel i a b st st1 st2 ra rb hg hm hca hcb] at h
      simp only [Option.some.injEq, Prod.mk.injEq] at h
      exact ⟨ra, st1, rb, st2, rfl, hcb, h.1.symm, h.2.symm⟩

theorem compile_sub_inv (g : List Op) (fuel i a b : Nat) (st : CState)
    (res : CompileResult) (st' : CState)
    (hg : g[i]? = some (.sub a b)) (hm : st.memo.getD i none = none)
    (h : Op.compile g (fuel + 1) i st = some (res, st')) :
    ∃ ra st1 rb st2, Op.compile g fuel a st = some (ra, st1) ∧
      Op.compile g fuel b st1 = some (rb, st2) ∧
      res = .compiled (ra.newInstructions ++ (rb.newInstructions ++
        [instruction.sub ra.get_ret rb.get_ret st2.counter])) st2.counter ∧
      st' = ⟨st2.memo.set i (some st2.counter), st2.counter + 1⟩ := by
  have hm' := hm
  rw [List.getD_eq_getElem?_getD] at hm'
  cases hca : Op.compile g fuel a st with
  | none =>
    have hnone : Op.compile g (fuel + 1) i st = none := by
      simp [Op.compile, hg, hm', hca]
    rw [hnone] at h
    cases h
  | some pa =>
    obtain ⟨ra, st1⟩ := pa
    cases hcb : Op.compile g fuel b st1 with
    | none =>
      have hnone : Op.compile g (fuel + 1) i st = none := by
        simp [Op.compile, hg, hm', hca, hcb]
      rw [hnone] at h
      cases h
    | some pb =>
      obtain ⟨rb, st2⟩ := pb
      rw [compile_sub_eq g fuel i a b st st1 st2 ra rb hg hm hca hcb] at h
      simp only [Option.some.injEq, Prod.mk.injEq] at h
      exact ⟨ra, st1, rb, st2, rfl, hcb, h.1.symm, h.2.symm⟩

theorem compile_mul_inv (g : List Op) (fuel i a b : Nat) (st : CState)
    (res : CompileResult) (st' : CState)
    (hg : g[i]? = some (.mul a b)) (hm : st.memo.getD i none = none)
    (h : Op.compile g (fuel + 1) i st = some (res, st')) :
    ∃ ra st1 rb st2, Op.compile g fuel a st = some (ra, st1) ∧
      Op.compile g fuel b st1 = some (rb, st2) ∧
      res = .compiled (ra.newInstructions ++ (rb.newInstructions ++
        [instruction.mul ra.get_ret rb.get_ret st2.counter])) st2.counter ∧
      st' = ⟨st2.memo.set i (some st2.counter), st2.counter + 1⟩ := by
  have hm' := hm
  rw [List.getD_eq_getElem?_getD] at hm'
  cases hca : Op.compile g fuel a st with
  | none =>
    have hnone : Op.compile g (fuel + 1) i st = none := by
      simp [Op.compile, hg, hm', hca]
    rw [hnone] at h
    cases h
  | some pa =>
    obtain ⟨ra, st1⟩ := pa
    cases hcb : Op.compile g fuel b st1 with
    | none =>
      have hnone : Op.compile g (fuel + 1) i st = none := by
        simp [Op.compile, hg, hm', hca, hcb]
      rw [hnone] at h
      cases h
    | some pb =>
      obtain ⟨rb, st2⟩ := pb
      rw [compile_mul_eq g fuel i a b st st1 st2 ra rb hg hm hca hcb] at h
      simp only [Option.some.injEq, Prod.mk.injEq] at h
      exact ⟨ra, st1, rb, st2, rfl, hcb, h.1.symm, h.2.symm⟩

theorem compile_div_inv (g : List Op) (fuel i a b : Nat) (st : CState)
    (res : CompileResult) (st' : CState)
    (hg : g[i]? = some (.div a b)) (hm : st.memo.getD i none = none)
    (h : Op.compile g (fuel + 1) i st = some (res, st')) :
    ∃ ra st1 rb st2, Op.compile g fuel a st = some (ra, st1) ∧
      Op.compile g fuel b st1 = some (rb, st2) ∧
      res = .compiled (ra.newInstructions ++ (rb.newInstructions ++
        [instruction.div ra.get_ret rb.get_ret st2.counter])) st2.counter ∧
      st' = ⟨st2.memo.set i (some st2.counter), st2.counter + 1⟩ := by
  have hm' := hm
  rw [List.getD_eq_getElem?_getD] at hm'
  cases hca : Op.compile g fuel a st with
  | none =>
    have hnone : Op.compile g (fuel + 1) i st = none := by
      simp [Op.compile, hg, hm', hca]
    rw [hnone] at h
    cases h
  | some pa =>
    obtain ⟨ra, st1⟩ := pa
    cases hcb : Op.compile g fuel b st1 with
    | none =>
      have hnone : Op.compile g (fuel + 1) i st = none := by
        simp [Op.compile, hg, hm', hca, hcb]
      rw [hnone] at h
      cases h
    | some pb =>
      obtain ⟨rb, st2⟩ := pb
      rw [compile_div_eq g fuel i a b st st1 st2 ra rb hg hm hca hcb] at h
      simp only [Option.some.injEq, Prod.mk.injEq] at h
      exact ⟨ra, st1, rb, st2, rfl, hcb, h.1.symm, h.2.symm⟩

/-- A set `compile_ret` field is never unset or changed by any later
`compile` call: once `Some(slot)`, always that same `Some(slot)`. -/
theorem compile_memo_mono (g : List Op) :
    ∀ fuel i st res st', Op.compile g fuel i st = some (res, st') →
      ∀ k s, st.memo.getD k none = some s → st'.memo.getD k none = some s := by
  intro fuel
  induction fuel with
  | zero =>
    intro i st res st' h
    exact absurd h (by simp [Op.compile])
  | succ fuel ih =>
    intro i st res st' h k s hk
    obtain ⟨op, hg⟩ := compile_some_node g fuel i st res st' h
    cases hm : st.memo.getD i none with
    | some r =>
      obtain ⟨-, hst⟩ := compile_memo_some_inv g fuel i st op r res st' hg hm h
      rw [hst]
      exact hk
    | none =>
      have hki : k ≠ i := fun he => by rw [he, hm] at hk; cases hk
      cases op with
      | constant v =>
        obtain ⟨-, hst⟩ := compile_constant_inv g fuel i st v res st' hg hm h
        rw [hst]
        show (st.memo.set i (some st.counter)).getD k none = some s
        rw [getD_set_ne st.memo i k _ hki]
        exact hk
      | add a b =>
        obtain ⟨ra, st1, rb, st2, hca, hcb, -, hst⟩ :=
          compile_add_inv g fuel i a b st res st' hg hm h
        rw [hst]
        show (st2.memo.set i (some st2.counter)).getD k none = some s
        rw [getD_set_ne st2.memo i k _ hki]
        exact ih b st1 rb st2 hcb k s (ih a st ra st1 hca k s hk)
      | sub a b =>
        obtain ⟨ra, st1, rb, st2, hca, hcb, -, hst⟩ :=
          compile_sub_inv g fuel i a b st res st' hg hm h
        rw [hst]
        show (st2.memo.set i (some st2.counter)).getD k none = some s
        rw [getD_set_ne st2.memo i k _ hki]
        exact ih b st1 rb st2 hcb k s (ih a st ra st1 hca k s hk)
      | mul a b =>
        obtain ⟨ra, st1, rb, st2, hca, hcb, -, hst⟩ :=
          compile_mul_inv g fuel i a b st res st' hg hm h
        rw [hst]
        show (st2.memo.set i (some st2.counter)).getD k none = some s
        rw [getD_set_ne st2.memo i k _ hki]
        exact ih b st1 rb st2 hcb k s (ih a st ra st1 hca k s hk)
      | div a b =>
        obtain ⟨ra, st1, rb, st2, hca, hcb, -, hst⟩ :=
          compile_div_inv g fuel i a b st res st' hg hm h
        rw [hst]
        show (st2.memo.set i (some st2.counter)).getD k none = some s
        rw [getD_set_ne st2.memo i k _ hki]
        exact ih b st1 rb st2 hcb k s (ih a st ra st1 hca k s hk)

/-- A successful `compile` stays successful, with the same output, when given
one more unit of fuel. -/
theorem compile_fuel_mono (g : List Op) :
    ∀ fuel i st res st', Op.compile g fuel i st = some (res, st') →
      Op.compile g (fuel + 1) i st = some (res, st') := by
  intro fuel
  induction fuel with
  | zero =>
    intro i st res st' h
    exact absurd h (by simp [Op.compile])
  | succ fuel ih =>
    intro i st res st' h
    obtain ⟨op, hg⟩ := compile_some_node g fuel i st res st' h
    cases hm : st.memo.getD i none with
    | some r =>
      obtain ⟨hres, hst⟩ := compile_memo_some_inv g fuel i st op r res st' hg hm h
      rw [hres, hst]
      exact compile_memo_some g (fuel + 1) i st op r hg hm
    | none =>
      cases op with
      | constant v =>
        obtain ⟨hres, hst⟩ := compile_constant_inv g fuel i st v res st' hg hm h
        rw [hres, hst]
        exact compile_constant_eq g (fuel + 1) i st v hg hm
      | add a b =>
        obtain ⟨ra, st1, rb, st2, hca, hcb, hres, hst⟩ :=
          compile_add_inv g fuel i a b st res st' hg hm h
        rw [hres, hst]
        exact compile_add_eq g (fuel + 1) i a b st st1 st2 ra rb hg hm
          (ih a st ra st1 hca) (ih b st1 rb st2 hcb)
      | sub a b =>
        obtain ⟨ra, st1, rb, st2, hca, hcb, hres, hst⟩ :=
          compile_sub_inv g fuel i a b st res st' hg hm h
        rw [hres, hst]
        exact compile_sub_eq g (fuel + 1) i a b st st1 st2 ra rb hg hm
          (ih a st ra st1 hca) (ih b st1 rb st2 hcb)
      | mul a b =>
        obtain ⟨ra, st1, rb, st2, hca, hcb, hres, hst⟩ :=
          compile_mul_inv g fuel i a b st res st' hg hm h
        rw [hres, hst]
        exact compile_mul_eq g (fuel + 1) i a b st st1 st2 ra rb hg hm
          (ih a st ra st1 hca) (ih b st1 rb st2 hcb)
      | div a b =>
        obtain ⟨ra, st1, rb, st2, hca, hcb, hres, hst⟩ :=
          compile_div_inv g fuel i a b st res st' hg hm h
        rw [hres, hst]
        exact compile_div_eq g (fuel + 1) i a b st st1 st2 ra rb hg hm
          (ih a st ra st1 hca) (ih b st1 rb st2 hcb)

theorem compile_fuel_le (g : List Op) (i : Nat) (st : CState) (res : CompileResult)
    (st' : CState) (fuel fuel' : Nat) (hle : fuel ≤ fuel')
    (h : Op.compile g fuel i st = some (res, st')) :
    Op.compile g fuel' i st = some (res, st') := by
  induction fuel' with
  | zero =>
    have hz : fuel = 0 := by omega
    subst hz
    exact h
  | succ fuel' ih =>
    rcases Nat.eq_or_lt_of_le hle with he | hlt
    · subst he
      exact h
    · exact compile_fuel_mono g fuel' i st res st' (ih (by omega))

/-! Determinism of lowering: two freshly constructed, non-aliased copies of
the same expression structure (related by an index renaming) lower to the
same instruction list.  Construction order fixes an index renaming `φ`; the
traversal is structural, so even the allocated slots coincide. -/

/-- Rename the operand indices of a node. -/
def Op.rename (φ : Nat → Nat) : Op → Op
  | .constant v => .constant v
  | .add a b => .add (φ a) (φ b)
  | .sub a b => .sub (φ a) (φ b)
  | .mul a b => .mul (φ a) (φ b)
  | .div a b => .div (φ a) (φ b)

/-- `φ` embeds arena `g` into arena `g'` node for node: the same expression
structure built twice, each copy with its own (non-aliased) nodes.
Injectivity keeps distinct nodes distinct, so neither copy shares more than
the other. -/
structure Iso (g g' : List Op) (φ : Nat → Nat) : Prop where
  inj : ∀ i j, i < g.length → j < g.length → φ i = φ j → i = j
  maps : ∀ (i : Nat) (op : Op), g[i]? = some op → g'[φ i]? = some (op.rename φ)

/-- Compile states of the two copies related pointwise through `φ`. -/
def RelSt (g g' : List Op) (φ : Nat → Nat) (st tt : CState) : Prop :=
  st.memo.length = g.length ∧ tt.memo.length = g'.length ∧
  st.counter = tt.counter ∧
  ∀ i, i < g.length → st.memo.getD i none = tt.memo.getD (φ i) none

/-- Discharge `Iso` by checking every node of concrete arenas. -/
theorem Iso_of_fin (g g' : List Op) (φ : Nat → Nat)
    (hinj : ∀ i j : Fin g.length, φ i.val = φ j.val → i.val = j.val)
    (hmaps : ∀ i : Fin g.length, g'[φ i.val]? = some ((g.get i).rename φ)) :
    Iso g g' φ := by
  refine ⟨fun i j hi hj he => hinj ⟨i, hi⟩ ⟨j, hj⟩ he, ?_⟩
  intro i op hgi
  have hi : i < g.length := by
    by_contra hc
    rw [List.getElem?_eq_none (by omega)] at hgi
    cases hgi
  have hgop : g[i] = op := by
    have heq := List.getElem?_eq_getElem hi
    rw [heq] at hgi
    cases hgi
    rfl
  have := hmaps ⟨i, hi⟩
  rw [List.get_eq_getElem, hgop] at this
  exact this

/-- Step-by-step simulation between the two copies: the same recursive
`compile` call on related states produces the very same result (instructions
and slots included) and related states. -/
theorem iso_sim (g g' : List Op) (φ : Nat → Nat) (hwf : WF g) (hiso : Iso g g' φ) :
    ∀ fuel i st tt res st1, i < g.length → RelSt g g' φ st tt →
      Op.compile g fuel i st = some (res, st1) →
      ∃ tt1, Op.compile g' fuel (φ i) tt = some (res, tt1) ∧ RelSt g g' φ st1 tt1 := by
  intro fuel
  induction fuel with
  | zero =>
    intro i st tt res st1 hi hrel h
    exact absurd h (by simp [Op.compile])
  | succ fuel ih =>
    intro i st tt res st1 hi hrel h
    obtain ⟨hlen, hlen', hcnt, hpt⟩ := hrel
    have hg : g[i]? = some g[i] := List.getElem?_eq_getElem hi
    have hg' : g'[φ i]? = some ((g[i]).rename φ) := hiso.maps i g[i] hg
    have hφi : φ i < g'.length := by
      by_contra hc
      rw [List.getElem?_eq_none (by omega)] at hg'
      cases hg'
    have hmeq : st.memo.getD i none = tt.memo.getD (φ i) none := hpt i hi
    cases hm : st.memo.getD i none with
    | some r =>
      obtain ⟨hres, hst⟩ := compile_memo_some_inv g fuel i st g[i] r res st1 hg hm h
      rw [hres, hst]
      refine ⟨tt, compile_memo_some g' fuel (φ i) tt _ r hg' (by rw [← hmeq]; exact hm), ?_⟩
      exact ⟨hlen, hlen', hcnt, hpt⟩
    | none =>
      have hm' : tt.memo.getD (φ i) none = none := by
        rw [← hmeq]
        exact hm
      cases hop : g[i] with
      | constant v =>
        obtain ⟨hres, hst⟩ := compile_constant_inv g fuel i st v res st1 (hop ▸ hg) hm h
        rw [hres, hst]
        refine ⟨⟨tt.memo.set (φ i) (some tt.counter), tt.counter + 1⟩, ?_, ?_⟩
        · have heq := compile_constant_eq g' fuel (φ i) tt v (by rw [hop] at hg'; exact hg') hm'
          rw [heq, hcnt]
        · refine ⟨by simpa using hlen, by simpa using hlen', by simp [hcnt], ?_⟩
          intro k hk
          by_cases hki : k = i
          · subst hki
            show (st.memo.set k (some st.counter)).getD k none = _
            rw [getD_set_self st.memo k _ (by omega),
              getD_set_self tt.memo (φ k) _ (by omega), hcnt]
          · have hne : φ k ≠ φ i := fun he => hki (hiso.inj k i hk hi he)
            show (st.memo.set i (some st.counter)).getD k none = _
            rw [getD_set_ne st.memo i k _ hki, getD_set_ne tt.memo (φ i) (φ k) _ hne]
            exact hpt k hk
      | add a b =>
        have ha : a < i := hwf i _ (hop ▸ hg) a (by simp [Op.args])
        have hb : b < i := hwf i _ (hop ▸ hg) b (by simp [Op.args])
        obtain ⟨ra, st1a, rb, st2, hca, hcb, hres, hst⟩ :=
          compile_add_inv g fuel i a b st res st1 (hop ▸ hg) hm h
        obtain ⟨tta, hca', hrela⟩ :=
          ih a st tt ra st1a (by omega) ⟨hlen, hlen', hcnt, hpt⟩ hca
        obtain ⟨ttb, hcb', hrelb⟩ := ih b st1a tta rb st2 (by omega) hrela hcb
        obtain ⟨hlen2, hlen2', hcnt2, hpt2⟩ := hrelb
        rw [hres, hst]
        refine ⟨⟨ttb.memo.set (φ i) (some ttb.counter), ttb.counter + 1⟩, ?_, ?_⟩
        · have heq := compile_add_eq g' fuel (φ i) (φ a) (φ b) tt tta ttb ra rb
            (by rw [hop] at hg'; exact hg') hm' hca' hcb'
          rw [heq, hcnt2]
        · refine ⟨by simpa using hlen2, by simpa using hlen2', by simp [hcnt2], ?_⟩
          intro k hk
          by_cases hki : k = i
          · subst hki
            show (st2.memo.set k (some st2.counter)).getD k none = _
            rw [getD_set_self st2.memo k _ (by omega),
              getD_set_self ttb.memo (φ k) _ (by omega), hcnt2]
          · have hne : φ k ≠ φ i := fun he => hki (hiso.inj k i hk hi he)
            show (st2.memo.set i (some st2.counter)).getD k none = _
            rw [getD_set_ne st2.memo i k _ hki, getD_set_ne ttb.memo (φ i) (φ k) _ hne]
            exact hpt2 k hk
      | sub a b =>
        have ha : a < i := hwf i _ (hop ▸ hg) a (by simp [Op.args])
        have hb : b < i := hwf i _ (hop ▸ hg) b (by simp [Op.args])
        obtain ⟨ra, st1a, rb, st2, hca, hcb, hres, hst⟩ :=
          compile_sub_inv g fuel i a b st res st1 (hop ▸ hg) hm h
        obtain ⟨tta, hca', hrela⟩ :=
          ih a st tt ra st1a (by omega) ⟨hlen, hlen', hcnt, hpt⟩ hca
        obtain ⟨ttb, hcb', hrelb⟩ := ih b st1a tta rb st2 (by omega) hrela hcb
        obtain ⟨hlen2, hlen2', hcnt2, hpt2⟩ := hrelb
        rw [hres, hst]
        refine ⟨⟨ttb.memo.set (φ i) (some ttb.counter), ttb.counter + 1⟩, ?_, ?_⟩
        · have heq := compile_sub_eq g' fuel (φ i) (φ a) (φ b) tt tta ttb ra rb
            (by rw [hop] at hg'; exact hg') hm' hca' hcb'
          rw [heq, hcnt2]
        · refine ⟨by simpa using hlen2, by simpa using hlen2', by simp [hcnt2], ?_⟩
          intro k hk
          by_cases hki : k = i
          · subst hki
            show (st2.memo.set k (some st2.counter)).getD k none = _
            rw [getD_set_self st2.memo k _ (by omega),
              getD_set_self ttb.memo (φ k) _ (by omega), hcnt2]
          · have hne : φ k ≠ φ i := fun he => hki (hiso.inj k i hk hi he)
            show (st2.memo.set i (some st2.counter)).getD k none = _
            rw [getD_set_ne st2.memo i k _ hki, getD_set_ne ttb.memo (φ i) (φ k) _ hne]
            exact hpt2 k hk
      | mul a b =>
        have ha : a < i := hwf i _ (hop ▸ hg) a (by simp [Op.args])
        have hb : b < i := hwf i _ (hop ▸ hg) b (by simp [Op.args])
        obtain ⟨ra, st1a, rb, st2, hca, hcb, hres, hst⟩ :=
          compile_mul_inv g fuel i a b st res st1 (hop ▸ hg) hm h
        obtain ⟨tta, hca', hrela⟩ :=
          ih a st tt ra st1a (by omega) ⟨hlen, hlen', hcnt, hpt⟩ hca
        obtain ⟨ttb, hcb', hrelb⟩ := ih b st1a tta rb st2 (by omega) hrela hcb
        obtain ⟨hlen2, hlen2', hcnt2, hpt2⟩ := hrelb
        rw [hres, hst]
        refine ⟨⟨ttb.memo.set (φ i) (some ttb.counter), ttb.counter + 1⟩, ?_, ?_⟩
        · have heq := compile_mul_eq g' fuel (φ i) (φ a) (φ b) tt tta ttb ra rb
            (by rw [hop] at hg'; exact hg') hm' hca' hcb'
          rw [heq, hcnt2]
        · refine ⟨by simpa using hlen2, by simpa using hlen2', by simp [hcnt2], ?_⟩
          intro k hk
          by_cases hki : k = i
          · subst hki
            show (st2.memo.set k (some st2.counter)).getD k none = _
            rw [getD_set_self st2.memo k _ (by omega),
              getD_set_self ttb.memo (φ k) _ (by omega), hcnt2]
          · have hne : φ k ≠ φ i := fun he => hki (hiso.inj k i hk hi he)
            show (st2.memo.set i (some st2.counter)).getD k none = _
            rw [getD_set_ne st2.memo i k _ hki, getD_set_ne ttb.memo (φ i) (φ k) _ hne]
            exact hpt2 k hk
      | div a b =>
        have ha : a < i := hwf i _ (hop ▸ hg) a (by simp [Op.args])
        have hb : b < i := hwf i _ (hop ▸ hg) b (by simp [Op.args])
        obtain ⟨ra, st1a, rb, st2, hca, hcb, hres, hst⟩ :=
          compile_div_inv g fuel i a b st res st1 (hop ▸ hg) hm h
        obtain ⟨tta, hca', hrela⟩ :=
          ih a st tt ra st1a (by omega) ⟨hlen, hlen', hcnt, hpt⟩ hca
        obtain ⟨ttb, hcb', hrelb⟩ := ih b st1a tta rb st2 (by omega) hrela hcb
        obtain ⟨hlen2, hlen2', hcnt2, hpt2⟩ := hrelb
        rw [hres, hst]
        refine ⟨⟨ttb.memo.set (φ i) (some ttb.counter), ttb.counter + 1⟩, ?_, ?_⟩
        · have heq := compile_div_eq g' fuel (φ i) (φ a) (φ b) tt tta ttb ra rb
            (by rw [hop] at hg'; exact hg') hm' hca' hcb'
          rw [heq, hcnt2]
        · refine ⟨by simpa using hlen2, by simpa using hlen2', by simp [hcnt2], ?_⟩
          intro k hk
          by_cases hki : k = i
          · subst hki
            show (st2.memo.set k (some st2.counter)).getD k none = _
            rw [getD_set_self st2.memo k _ (by omega),
              getD_set_self ttb.memo (φ k) _ (by omega), hcnt2]
          · have hne : φ k ≠ φ i := fun he => hki (hiso.inj k i hk hi he)
            show (st2.memo.set i (some st2.counter)).getD k none = _
            rw [getD_set_ne st2.memo i k _ hki, getD_set_ne ttb.memo (φ i) (φ k) _ hne]
            exact hpt2 k hk

/-! Concrete scenario arenas from the spec. -/

/-- The scenario `constant(1) add constant(2)` (root node 2). -/
def exAddGraph : List Op := [.constant (.finite 1), .constant (.finite 2), .add 0 1]

/-- The sharing scenario `x = constant(5); y = add(x, x)` (root node 1): both
operands of the `add` alias node 0. -/
def exShareGraph : List Op := [.constant (.finite 5), .add 0 0]

/-- The division-by-zero scenario `constant(1) div constant(0)` (root 2). -/
def exDivGraph : List Op := [.constant (.finite 1), .constant (.finite 0), .div 0 1]

/-- A second, non-aliased copy of `exAddGraph` with its nodes laid out in a
different order. -/
def exAddGraphPerm : List Op := [.constant (.finite 2), .constant (.finite 1), .add 1 0]

/-- The node renaming relating `exAddGraph` to `exAddGraphPerm`. -/
def exSwap : Nat → Nat := fun i => if i = 0 then 1 else if i = 1 then 0 else i

/-! The claims. -/

/-- C1: for every expression built from constants and the four binary
operators (any well-formed arena, any root), a first-time top-level compile
succeeds, and executing the returned instruction list in order against a
slot-indexed store leaves at the reported result slot exactly the value
`execute` returns on the same expression (equality is exact in the idealized
value domain, hence within floating-point tolerance). -/
theorem compile_refines_execute (g : List Op) (root : Nat) (hwf : WF g)
    (hroot : root < g.length) :
    ∃ instrs ret st' σ v,
      Op.compile g (root + 1) root ⟨freshMemo g, 0⟩ =
        some (.compiled instrs ret, st') ∧
      Scalar.compile g root (freshMemo g) = some instrs ∧
      execProgram Store.empty instrs = some σ ∧
      Scalar.execute g root = some v ∧
      σ ret = some v := by
  obtain ⟨instrs, ret, st', σ, v, hc, hsc, -, hrun, hexe, hval, -, -, -⟩ :=
    fresh_compile_spec g hwf root hroot
  exact ⟨instrs, ret, st', σ, v, hc, hsc, hrun, hexe, hval⟩

/-- Witness for C1 at `constant(1) add constant(2)`. -/
theorem compile_refines_execute_witness :
    ∃ instrs ret st' σ v,
      Op.compile exAddGraph 3 2 ⟨freshMemo exAddGraph, 0⟩ =
        some (.compiled instrs ret, st') ∧
      Scalar.compile exAddGraph 2 (freshMemo exAddGraph) = some instrs ∧
      execProgram Store.empty instrs = some σ ∧
      Scalar.execute exAddGraph 2 = some v ∧
      σ ret = some v :=
  compile_refines_execute exAddGraph 2 (WF_of_fin exAddGraph (by decide)) (by decide)

/-- C2: memoization is exactly-once: a set `compile_ret` is preserved
unchanged by every further `compile` call (so the `None → Some(slot)`
transition happens at most once over a node's lifetime); a call reaching a
node whose memo is set returns `AlreadyCompiled(slot)` at once with the
state untouched (no recursion into operands, no new instructions); and
lowering `add(x, x)` over one shared `constant(5)` node emits exactly 2
instructions, the `add` naming the shared slot twice. -/
theorem memo_exactly_once :
    (∀ (g : List Op) (fuel i : Nat) (st : CState) (res : CompileResult) (st' : CState),
      Op.compile g fuel i st = some (res, st') →
      ∀ k s, st.memo.getD k none = some s → st'.memo.getD k none = some s) ∧
    (∀ (g : List Op) (fuel i : Nat) (st : CState) (op : Op) (s : Nat),
      g[i]? = some op → st.memo.getD i none = some s →
      Op.compile g (fuel + 1) i st = some (.alreadyCompiled s, st)) ∧
    Scalar.compile exShareGraph 1 (freshMemo exShareGraph) =
      some [instruction.constant (.finite 5) 0, instruction.add 0 0 1] := by
  exact ⟨compile_memo_mono, fun g fuel i st op s hg hm =>
    compile_memo_some g fuel i st op s hg hm, by decide⟩

/-- Witness for C2: a second compile call on an already-memoized constant
node returns `AlreadyCompiled` with the state untouched. -/
theorem memo_exactly_once_witness :
    Op.compile exShareGraph 1 0 ⟨[some 0, none], 1⟩ =
      some (.alreadyCompiled 0, ⟨[some 0, none], 1⟩) :=
  memo_exactly_once.2.1 exShareGraph 0 0 ⟨[some 0, none], 1⟩
    (.constant (.finite 5)) 0 rfl rfl

/-- C3: within one fresh top-level compile, destination slots come from the
single shared counter starting at 0: the destination of the j-th emitted
instruction is exactly j, so slots strictly increase in first-lowering
order, each is used as a destination exactly once, the destination set is
{0, …, k−1} with no gaps or repeats, and k equals both the final counter and
the number of distinct (memoized) nodes compiled. -/
theorem slot_density (g : List Op) (root : Nat) (hwf : WF g)
    (hroot : root < g.length) :
    ∃ instrs ret st',
      Op.compile g (root + 1) root ⟨freshMemo g, 0⟩ =
        some (.compiled instrs ret, st') ∧
      Scalar.compile g root (freshMemo g) = some instrs ∧
      instrs.map Instruction.ret = List.range instrs.length ∧
      st'.counter = instrs.length ∧
      st'.memo.countP Option.isSome = instrs.length := by
  obtain ⟨instrs, ret, st', σ, v, hc, hsc, hInv, -, -, -, -, -, -⟩ :=
    fresh_compile_spec g hwf root hroot
  refine ⟨instrs, ret, st', hc, hsc, dst_map_range instrs hInv.dst_pos,
    hInv.counter_eq, ?_⟩
  rw [hInv.memo_count, hInv.counter_eq]

/-- Witness for C3 at `constant(1) add constant(2)`. -/
theorem slot_density_witness :
    ∃ instrs ret st',
      Op.compile exAddGraph 3 2 ⟨freshMemo exAddGraph, 0⟩ =
        some (.compiled instrs ret, st') ∧
      Scalar.compile exAddGraph 2 (freshMemo exAddGraph) = some instrs ∧
      instrs.map Instruction.ret = List.range instrs.length ∧
      st'.counter = instrs.length ∧
      st'.memo.countP Option.isSome = instrs.length :=
  slot_density exAddGraph 2 (WF_of_fin exAddGraph (by decide)) (by decide)

/-- C4: `execute` is a pure read-only evaluator — in the embedding it takes
no memo state, mutates nothing and returns no state — with
`execute(Constant v) = v` and each binary node returning the model-f32
sum/difference/product/quotient of its operands' `execute` results. -/
theorem execute_spec (g : List Op) (hwf : WF g) :
    (∀ (i : Nat) (v : F32), g[i]? = some (.constant v) →
      Scalar.execute g i = some v) ∧
    (∀ i a b : Nat, i < g.length → g[i]? = some (.add a b) →
      ∃ x y, Scalar.execute g a = some x ∧ Scalar.execute g b = some y ∧
        Scalar.execute g i = some (F32.add x y)) ∧
    (∀ i a b : Nat, i < g.length → g[i]? = some (.sub a b) →
      ∃ x y, Scalar.execute g a = some x ∧ Scalar.execute g b = some y ∧
        Scalar.execute g i = some (F32.sub x y)) ∧
    (∀ i a b : Nat, i < g.length → g[i]? = some (.mul a b) →
      ∃ x y, Scalar.execute g a = some x ∧ Scalar.execute g b = some y ∧
        Scalar.execute g i = some (F32.mul x y)) ∧
    (∀ i a b : Nat, i < g.length → g[i]? = some (.div a b) →
      ∃ x y, Scalar.execute g a = some x ∧ Scalar.execute g b = some y ∧
        Scalar.execute g i = some (F32.div x y)) := by
  refine ⟨?_, ?_, ?_, ?_, ?_⟩
  · intro i v hg
    simp [Scalar.execute, Op.execute, hg]
  · intro i a b hi hg
    have ha : a < i := hwf i _ hg a (by simp [Op.args])
    have hb : b < i := hwf i _ hg b (by simp [Op.args])
    obtain ⟨x, hx⟩ := execute_total g hwf a (by omega)
    obtain ⟨y, hy⟩ := execute_total g hwf b (by omega)
    exact ⟨x, y, hx, hy, execute_add_node g hwf i a b hi hg x y hx hy⟩
  · intro i a b hi hg
    have ha : a < i := hwf i _ hg a (by simp [Op.args])
    have hb : b < i := hwf i _ hg b (by simp [Op.args])
    obtain ⟨x, hx⟩ := execute_total g hwf a (by omega)
    obtain ⟨y, hy⟩ := execute_total g hwf b (by omega)
    exact ⟨x, y, hx, hy, execute_sub_node g hwf i a b hi hg x y hx hy⟩
  · intro i a b hi hg
    have ha : a < i := hwf i _ hg a (by simp [Op.args])
    have hb : b < i := hwf i _ hg b (by simp [Op.args])
    obtain ⟨x, hx⟩ := execute_total g hwf a (by omega)
    obtain ⟨y, hy⟩ := execute_total g hwf b (by omega)
    exact ⟨x, y, hx, hy, execute_mul_node g hwf i a b hi hg x y hx hy⟩
  · intro i a b hi hg
    have ha : a < i := hwf i _ hg a (by simp [Op.args])
    have hb : b < i := hwf i _ hg b (by simp [Op.args])
    obtain ⟨x, hx⟩ := execute_total g hwf a (by omega)
    obtain ⟨y, hy⟩ := execute_total g hwf b (by omega)
    exact ⟨x, y, hx, hy, execute_div_node g hwf i a b hi hg x y hx hy⟩

/-- Witness for C4: the constant leaf and the add node of
`constant(1) add constant(2)`. -/
theorem execute_spec_witness :
    Scalar.execute exAddGraph 0 = some (.finite 1) ∧
    ∃ x y, Scalar.execute exAddGraph 0 = some x ∧
      Scalar.execute exAddGraph 1 = some y ∧
      Scalar.execute exAddGraph 2 = some (F32.add x y) :=
  ⟨(execute_spec exAddGraph (WF_of_fin exAddGraph (by decide))).1 0 (.finite 1) rfl,
    (execute_spec exAddGraph (WF_of_fin exAddGraph (by decide))).2.1 2 0 1
      (by decide) rfl⟩

/-- C5: first-time lowering of a binary node compiles the left operand's
whole sub-expression first (from the incoming state), then the right operand
(from the left's resulting state), and the emitted list is [left's new
instructions, right's new instructions, one new binary instruction on the
two returned slots]; an `AlreadyCompiled` child contributes zero
instructions. -/
theorem binary_lowering_order :
    (∀ r : Nat, (CompileResult.alreadyCompiled r).newInstructions = []) ∧
    (∀ (g : List Op) (fuel i a b : Nat) (st st1 st2 : CState)
      (ra rb : CompileResult),
      g[i]? = some (.add a b) → st.memo.getD i none = none →
      Op.compile g fuel a st = some (ra, st1) →
      Op.compile g fuel b st1 = some (rb, st2) →
      Op.compile g (fuel + 1) i st =
        some (.compiled (ra.newInstructions ++ (rb.newInstructions ++
            [instruction.add ra.get_ret rb.get_ret st2.counter])) st2.counter,
          ⟨st2.memo.set i (some st2.counter), st2.counter + 1⟩)) ∧
    (∀ (g : List Op) (fuel i a b : Nat) (st st1 st2 : CState)
      (ra rb : CompileResult),
      g[i]? = some (.sub a b) → st.memo.getD i none = none →
      Op.compile g fuel a st = some (ra, st1) →
      Op.compile g fuel b st1 = some (rb, st2) →
      Op.compile g (fuel + 1) i st =
        some (.compiled (ra.newInstructions ++ (rb.newInstructions ++
            [instruction.sub ra.get_ret rb.get_ret st2.counter])) st2.counter,
          ⟨st2.memo.set i (some st2.counter), st2.counter + 1⟩)) ∧
    (∀ (g : List Op) (fuel i a b : Nat) (st st1 st2 : CState)
      (ra rb : CompileResult),
      g[i]? = some (.mul a b) → st.memo.getD i none = none →
      Op.compile g fuel a st = some (ra, st1) →
      Op.compile g fuel b st1 = some (rb, st2) →
      Op.compile g (fuel + 1) i st =
        some (.compiled (ra.newInstructions ++ (rb.newInstructions ++
            [instruction.mul ra.get_ret rb.get_ret st2.counter])) st2.counter,
          ⟨st2.memo.set i (some st2.counter), st2.counter + 1⟩)) ∧
    (∀ (g : List Op) (fuel i a b : Nat) (st st1 st2 : CState)
      (ra rb : CompileResult),
      g[i]? = some (.div a b) → st.memo.getD i none = none →
      Op.compile g fuel a st = some (ra, st1) →
      Op.compile g fuel b st1 = some (rb, st2) →
      Op.compile g (fuel + 1) i st =
        some (.compiled (ra.newInstructions ++ (rb.newInstructions ++
            [instruction.div ra.get_ret rb.get_ret st2.counter])) st2.counter,
          ⟨st2.memo.set i (some st2.counter), st2.counter + 1⟩)) :=
  ⟨fun _ => rfl, compile_add_eq, compile_sub_eq, compile_mul_eq, compile_div_eq⟩

/-- Witness for C5: the add node of `constant(1) add constant(2)`, with the
two constant compiles computed concretely. -/
theorem binary_lowering_order_witness :
    Op.compile exAddGraph 3 2 ⟨freshMemo exAddGraph, 0⟩ =
      some (.compiled [instruction.constant (.finite 1) 0,
        instruction.constant (.finite 2) 1, instruction.add 0 1 2] 2,
        ⟨[some 0, some 1, some 2], 3⟩) :=
  binary_lowering_order.2.1 exAddGraph 2 2 0 1 ⟨freshMemo exAddGraph, 0⟩
    ⟨[some 0, none, none], 1⟩ ⟨[some 0, some 1, none], 2⟩
    (.compiled [instruction.constant (.finite 1) 0] 0)
    (.compiled [instruction.constant (.finite 2) 1] 1)
    rfl rfl (by decide) (by decide)

/-- C6: each instruction renders as "%<destination>: <op> <args…>" — a
load-constant as "%N: constant V", a binary as "%N: <name> %A %B" with
<name> in add|sub|mul|div; a fully lowered expression renders as the
instruction lines, each followed by a newline, then "ret <slot>"; and
`constant(1) add constant(2)` lowers to exactly the three instructions
rendering as "%0: constant 1", "%1: constant 2", "%2: add %0 %1" with line
"ret 2", and evaluates to 3.0. -/
theorem render_spec :
    (∀ (v : F32) (r : Nat), (instruction.constant v r).render =
      "%" ++ toString r ++ ": " ++ ("constant " ++ v.render)) ∧
    (∀ a b r : Nat, (instruction.add a b r).render =
      "%" ++ toString r ++ ": " ++ ("add %" ++ toString a ++ " %" ++ toString b)) ∧
    (∀ a b r : Nat, (instruction.sub a b r).render =
      "%" ++ toString r ++ ": " ++ ("sub %" ++ toString a ++ " %" ++ toString b)) ∧
    (∀ a b r : Nat, (instruction.mul a b r).render =
      "%" ++ toString r ++ ": " ++ ("mul %" ++ toString a ++ " %" ++ toString b)) ∧
    (∀ a b r : Nat, (instruction.div a b r).render =
      "%" ++ toString r ++ ": " ++ ("div %" ++ toString a ++ " %" ++ toString b)) ∧
    Op.compile exAddGraph 3 2 ⟨freshMemo exAddGraph, 0⟩ =
      some (.compiled [instruction.constant (.finite 1) 0,
        instruction.constant (.finite 2) 1, instruction.add 0 1 2] 2,
        ⟨[some 0, some 1, some 2], 3⟩) ∧
    [instruction.constant (.finite 1) 0, instruction.constant (.finite 2) 1,
      instruction.add 0 1 2].map Instruction.render =
      ["%0: constant 1", "%1: constant 2", "%2: add %0 %1"] ∧
    (CompileResult.compiled [instruction.constant (.finite 1) 0,
      instruction.constant (.finite 2) 1, instruction.add 0 1 2] 2).render =
      "%0: constant 1\n%1: constant 2\n%2: add %0 %1\nret 2" ∧
    Scalar.execute exAddGraph 2 = some (.finite 3) := by
  refine ⟨fun _ _ => rfl, fun _ _ _ => rfl, fun _ _ _ => rfl, fun _ _ _ => rfl,
    fun _ _ _ => rfl, by decide, by decide, by decide, ?_⟩
  simp only [Scalar.execute, Op.execute, exAddGraph, F32.add]
  norm_num

/-- C7: a freshly constructed expression's top-level compile never observes
`AlreadyCompiled` from the root — the root's result is always `Compiled` and
the entry point returns normally; and whenever the root does report
`AlreadyCompiled` (impossible when fresh), the entry point's behavior is the
modelled panic (`none`), never a normal return. -/
theorem root_never_already (g : List Op) (root : Nat) (hwf : WF g)
    (hroot : root < g.length) :
    (∃ instrs ret st',
      Op.compile g (root + 1) root ⟨freshMemo g, 0⟩ =
        some (.compiled instrs ret, st') ∧
      Scalar.compile g root (freshMemo g) = some instrs) ∧
    (∀ (memo0 : List (Option Nat)) (r : Nat) (st' : CState),
      Op.compile g (root + 1) root ⟨memo0, 0⟩ = some (.alreadyCompiled r, st') →
      Scalar.compile g root memo0 = none) := by
  constructor
  · obtain ⟨instrs, ret, st', σ, v, hc, hsc, -, -, -, -, -, -, -⟩ :=
      fresh_compile_spec g hwf root hroot
    exact ⟨instrs, ret, st', hc, hsc⟩
  · intro memo0 r st' h
    simp [Scalar.compile, h]

/-- Witness for C7 at `constant(1) add constant(2)`. -/
theorem root_never_already_witness :
    (∃ instrs ret st',
      Op.compile exAddGraph 3 2 ⟨freshMemo exAddGraph, 0⟩ =
        some (.compiled instrs ret, st') ∧
      Scalar.compile exAddGraph 2 (freshMemo exAddGraph) = some instrs) ∧
    (∀ (memo0 : List (Option Nat)) (r : Nat) (st' : CState),
      Op.compile exAddGraph 3 2 ⟨memo0, 0⟩ = some (.alreadyCompiled r, st') →
      Scalar.compile exAddGraph 2 memo0 = none) :=
  root_never_already exAddGraph 2 (WF_of_fin exAddGraph (by decide)) (by decide)

/-- C8: lowering is deterministic: two freshly constructed, non-aliased
copies of the same expression structure (arenas related node-for-node by a
renaming `φ`) lower to literally identical instruction lists, i.e. identical
up to the identity slot renumbering. -/
theorem lowering_deterministic (g g' : List Op) (φ : Nat → Nat) (root : Nat)
    (hwf : WF g) (hwf' : WF g') (hiso : Iso g g' φ) (hroot : root < g.length) :
    ∃ instrs, Scalar.compile g root (freshMemo g) = some instrs ∧
      Scalar.compile g' (φ root) (freshMemo g') = some instrs := by
  obtain ⟨instrs, ret, st', σ, v, hc, hsc, -, -, -, -, -, -, -⟩ :=
    fresh_compile_spec g hwf root hroot
  have hrel0 : RelSt g g' φ ⟨freshMemo g, 0⟩ ⟨freshMemo g', 0⟩ := by
    refine ⟨by simp [freshMemo], by simp [freshMemo], rfl, ?_⟩
    intro k hk
    rw [getD_freshMemo, getD_freshMemo]
  obtain ⟨tt1, hc', -⟩ := iso_sim g g' φ hwf hiso (root + 1) root
    ⟨freshMemo g, 0⟩ ⟨freshMemo g', 0⟩ (.compiled instrs ret) st' hroot hrel0 hc
  have hφroot : φ root < g'.length := by
    have hg : g[root]? = some g[root] := List.getElem?_eq_getElem hroot
    have hg' := hiso.maps root g[root] hg
    by_contra hcn
    rw [List.getElem?_eq_none (by omega)] at hg'
    cases hg'
  obtain ⟨instrs2, ret2, tt2, σ2, v2, hc2, hsc2, -, -, -, -, -, -, -⟩ :=
    fresh_compile_spec g' hwf' (φ root) hφroot
  have h1 := compile_fuel_le g' (φ root) ⟨freshMemo g', 0⟩ (.compiled instrs ret)
    tt1 (root + 1) (root + 1 + (φ root + 1)) (by omega) hc'
  have h2 := compile_fuel_le g' (φ root) ⟨freshMemo g', 0⟩
    (.compiled instrs2 ret2) tt2 (φ root + 1) (root + 1 + (φ root + 1))
    (by omega) hc2
  rw [h1] at h2
  simp only [Option.some.injEq, Prod.mk.injEq, CompileResult.compiled.injEq] at h2
  obtain ⟨⟨hil, -⟩, -⟩ := h2
  refine ⟨instrs, hsc, ?_⟩
  rw [hsc2, hil]

/-- Witness for C8: `constant(1) add constant(2)` built twice with the node
order of the copies swapped. -/
theorem lowering_deterministic_witness :
    ∃ instrs, Scalar.compile exAddGraph 2 (freshMemo exAddGraph) = some instrs ∧
      Scalar.compile exAddGraphPerm (exSwap 2) (freshMemo exAddGraphPerm) =
        some instrs :=
  lowering_deterministic exAddGraph exAddGraphPerm exSwap 2
    (WF_of_fin exAddGraph (by decide)) (WF_of_fin exAddGraphPerm (by decide))
    (Iso_of_fin exAddGraph exAddGraphPerm exSwap (by decide) (by decide))
    (by decide)

/-- C9: `constant(1) div constant(0)` evaluates to positive infinity, and in
general division of a finite value by the finite value zero follows the
IEEE-754 rule of the model: nonzero/0 is the correspondingly signed
infinity, 0/0 is NaN — a value, never an error. -/
theorem div_by_zero_infinity :
    Scalar.execute exDivGraph 2 = some (F32.inf false) ∧
    (∀ q : ℚ, q ≠ 0 → F32.div (.finite q) (.finite 0) = .inf (decide (q < 0))) ∧
    F32.div (.finite 0) (.finite 0) = F32.nan := by
  refine ⟨by decide, ?_, rfl⟩
  intro q hq
  simp [F32.div, hq]

/-- Witness for C9 at the dividend 1. -/
theorem div_by_zero_infinity_witness :
    (1 : ℚ) ≠ 0 ∧ F32.div (.finite 1) (.finite 0) = F32.inf false :=
  ⟨one_ne_zero, by simpa using div_by_zero_infinity.2.1 1 one_ne_zero⟩

/-- C10: a fresh top-level compile returns a nonempty instruction list whose
last instruction is the root's own: its destination equals the root's
recorded result slot and equals the list length minus one; the public
`Scalar.compile` returns only the list, so a consumer recovers the result
slot as the last instruction's destination. -/
theorem last_instruction_is_root (g : List Op) (root : Nat) (hwf : WF g)
    (hroot : root < g.length) :
    ∃ instrs ret st' last,
      Op.compile g (root + 1) root ⟨freshMemo g, 0⟩ =
        some (.compiled instrs ret, st') ∧
      Scalar.compile g root (freshMemo g) = some instrs ∧
      instrs ≠ [] ∧
      instrs.getLast? = some last ∧
      last.ret = ret ∧
      ret + 1 = instrs.length ∧
      st'.memo.getD root none = some ret := by
  obtain ⟨instrs, ret, st', σ, v, hc, hsc, -, -, -, -, hretlen, hmem, last, hlast, hlret⟩ :=
    fresh_compile_spec g hwf root hroot
  refine ⟨instrs, ret, st', last, hc, hsc, ?_, hlast, hlret, hretlen, hmem⟩
  intro he
  rw [he] at hlast
  cases hlast

/-- Witness for C10 at `constant(1) add constant(2)`. -/
theorem last_instruction_is_root_witness :
    ∃ instrs ret st' last,
      Op.compile exAddGraph 3 2 ⟨freshMemo exAddGraph, 0⟩ =
        some (.compiled instrs ret, st') ∧
      Scalar.compile exAddGraph 2 (freshMemo exAddGraph) = some instrs ∧
      instrs ≠ [] ∧
      instrs.getLast? = some last ∧
      last.ret = ret ∧
      ret + 1 = instrs.length ∧
      st'.memo.getD 2 none = some ret :=
  last_instruction_is_root exAddGraph 2 (WF_of_fin exAddGraph (by decide))
    (by decide)

end RustLazy
